import Mathlib

/-!
Verification development for the vim-channel-command repository: a duplex,
message-oriented session layer over a raw byte stream (a streaming JSON codec,
an identifier allocator, a response correlation table, and a session state
machine).  Each part of the TypeScript source that the checked properties
touch is shallowly embedded below: pure functions become Lean functions,
the asynchronous session machinery becomes an explicit state machine whose
events mirror the promise/pipeline events of `src/session.ts`.
-/

namespace VimChannel

/--
Model of a JavaScript runtime value as far as this library inspects one:
the JSON value constructors plus the `undefined` sentinel.  JavaScript
numbers are modelled as rationals (`Rat`), which expresses every
`typeof`-level check the code performs as well as the integer/non-integer
distinction (the floating-point representation itself is never consulted
by the code under verification).
-/
inductive UVal where
  | undef
  | unull
  | ubool (b : Bool)
  | unum (q : Rat)
  | ustr (s : List Char)
  | uarr (elems : List UVal)
  | uobj (fields : List (List Char × UVal))

/-- The JavaScript check `typeof x === "number"`. -/
def typeofIsNumber : UVal → Bool
  | .unum _ => true
  | _ => false

/-- The JavaScript check `typeof x === "undefined"`. -/
def typeofIsUndefined : UVal → Bool
  | .undef => true
  | _ => false

/--
Model of `isMessage` (src/message.ts): `Array.isArray(data) &&
data.length === 2 && typeof data[0] === "number" &&
typeof data[1] !== "undefined"`.
-/
def isMessage : UVal → Bool
  | .uarr [a, b] => typeofIsNumber a && !typeofIsUndefined b
  | _ => false

/--
The shape claimed by the spec for a well-formed Message: a two-element
array whose first element is an *integer* and whose payload is present.
This follows the claim's words (`Message = [id: integer, payload: any]`)
and exists only to be compared with `isMessage`, which is translated from
the code.
-/
def isMessageClaimed : UVal → Bool
  | .uarr [.unum q, b] => (q.den == 1) && !typeofIsUndefined b
  | _ => false

/--
The destructured message id (`const [msgid, _] = message` in
`Session.#handleMessage`).  Defaults to 0 on values that are not messages;
the session only reads it after `isMessage` has passed.
-/
def msgidOf : UVal → Rat
  | .uarr (.unum q :: _) => q
  | _ => 0

/-- What `Session.#handleMessage` does with one decoded inbound value. -/
inductive HandleAction where
  | resolveTo (msgid : Rat) (message : UVal)
  | notifyMessage (message : UVal)
  | notifyInvalid (data : UVal)

/--
Model of `Session.#handleMessage` (src/session.ts lines 203-216): an
invalid value goes to the `onInvalidMessage` hook; a message with a
negative id is resolved against the reservator; any other message goes to
the `onMessage` hook.
-/
def handleMessage (data : UVal) : HandleAction :=
  if isMessage data then
    if msgidOf data < 0 then .resolveTo (msgidOf data) data
    else .notifyMessage data
  else .notifyInvalid data

/--
Modelled from the spec: the identifier allocator (class `Indexer`, imported
from `./indexer.ts`, a file that is not among the sources; only its tests
and callers are).  Spec section 4.2 describes `next()` as returning the
current counter value and then advancing it, wrapping to zero; the concrete
wrap point and the construction guard are pinned by src/indexer_test.ts:
`new Indexer(3)` yields `0, 1, 2, 3, 0` (the counter wraps to zero only
after *reaching* the configured maximum, so the period is `max + 1`) and
`new Indexer(1)` throws an error mentioning "must be greater than 1".
`val` holds the value the next call returns.
-/
structure Indexer where
  max : Nat
  val : Nat

/-- Construction `new Indexer(max)`: fails for `max < 2`. -/
def newIndexer (max : Nat) : Except String Indexer :=
  if max < 2 then .error "The attribute must be greater than 1"
  else .ok ⟨max, 0⟩

/-- One `next()` call: the returned value and the advanced allocator. -/
def Indexer.next (i : Indexer) : Nat × Indexer :=
  (i.val, ⟨i.max, if i.max ≤ i.val then 0 else i.val + 1⟩)

/-- The allocator state after `k` calls to `next()`. -/
def Indexer.afterCalls (i : Indexer) : Nat → Indexer
  | 0 => i
  | k + 1 => (i.next.2).afterCalls k

/-- The value returned by the `k`-th (0-based) call to `next()`. -/
def indexerOutput (i : Indexer) (k : Nat) : Nat :=
  (i.afterCalls k).val

/-!
State machine embedding of `Session` (src/session.ts).  The session owns an
outer byte stream pair and an inner channel; `start` wires two pipelines
(outer reader → decode → `#handleMessage`, and inner reader → encode → outer
writer), each governed by its own `AbortController`, and builds `waiter =
Promise.all([consumer, producer]).finally(clear #running)`.  The
asynchronous behaviour is modelled as a labelled transition system: the
API methods are pure functions of the state returning an `Except`, and the
pipeline/promise events (a value getting decoded, the inbound source
ending, a queued chunk reaching the sink, each pipeline promise settling,
the waiter settling) are internal events applied by an executable step
function.  A disabled internal event leaves the state unchanged.
-/

/--
External failure causes that can hit a pipeline: a `DecodeStream` failure
on malformed inbound bytes, an unexpected failure of the inbound reader and
a failure of the caller-supplied outbound sink's `write`.  The deliberate
shutdown sentinel (the module-level `shutdown` symbol of src/session.ts,
the only value either controller is ever aborted with) is deliberately not
an `ErrKind`; it is tracked by the `consumerAborted` / `producerAborted`
flags.
-/
inductive ErrKind where
  | decodeErr
  | readErr
  | writeErr
deriving DecidableEq

/-- Settlement of a pipeline promise or of the waiter. -/
inductive Outcome where
  | ok
  | errored (e : ErrKind)
deriving DecidableEq

/-- Errors surfaced synchronously (or as an immediately rejected promise)
by the session's API methods. -/
inductive ApiError where
  | notRunning          -- "Session is not running"
  | alreadyRunning      -- "Session is already running"
  | duplicateReservation -- the Reservator rejects a second reserve of a pending key
  | innerWriterClosed    -- a write on the already-closed inner channel rejects
deriving DecidableEq

/-- The per-run state held in `Session.#running`. -/
structure RunState where
  /-- keys currently reserved in the `Reservator` (pending `recv` futures) -/
  pendingRecv : List Rat
  /-- data accepted by `innerWriter.write` but not yet written to the sink -/
  outQueue : List UVal
  /-- `consumerController.abort(shutdown)` has been called -/
  consumerAborted : Bool
  /-- `producerController.abort(shutdown)` has been called -/
  producerAborted : Bool
  /-- the inbound source finished on its own: EOF (`ok`) or a decode/read error -/
  inboundEnd : Option Outcome
  /-- settlement of the consumer promise, after `ignoreShutdownError` -/
  consumerResult : Option Outcome
  /-- settlement of the producer promise, after `ignoreShutdownError` -/
  producerResult : Option Outcome

/--
The observable state of one `Session` object.  `innerClosed` models the
writable side of the inner channel, which is created once in the
constructor and closed by the consumer pipeline's `finally`; it therefore
survives the transition back to idle and is not reset by `start`.  The
remaining fields record the externally observable history: chunks that
reached the outbound sink, hook invocations, reservator resolutions and
the settlement of the current run's waiter promise.
-/
structure SessionState where
  running : Option RunState
  innerClosed : Bool
  sink : List UVal
  onMessageLog : List UVal
  onInvalidLog : List UVal
  resolveAttempts : List (Rat × UVal)
  fulfilled : List (Rat × UVal)
  waiterResult : Option Outcome

/-- A freshly constructed session: idle, inner channel open, nothing observed. -/
def Session.new : SessionState :=
  ⟨none, false, [], [], [], [], [], none⟩

/-- The run state produced by `Session.start`. -/
def freshRun : RunState :=
  ⟨[], [], false, false, none, none, none⟩

/-- `Session.start`: throws if already running, otherwise wires the
pipelines afresh (new reservator, new controllers, a new waiter). -/
def Session.start (s : SessionState) : SessionState × Except ApiError Unit :=
  match s.running with
  | some _ => (s, .error .alreadyRunning)
  | none => ({ s with running := some freshRun, waiterResult := none }, .ok ())

/-- `Session.send`: rejects when not running; otherwise
`innerWriter.write(data)`, which rejects if the inner channel is already
closed and otherwise enqueues the data for the outbound pipeline. -/
def Session.send (s : SessionState) (v : UVal) : SessionState × Except ApiError Unit :=
  match s.running with
  | none => (s, .error .notRunning)
  | some r =>
      if s.innerClosed then (s, .error .innerWriterClosed)
      else ({ s with running := some { r with outQueue := r.outQueue ++ [v] } }, .ok ())

/-- `Session.recv`: rejects when not running; otherwise
`reservator.reserve(msgid)`, which throws on a duplicate reservation and
otherwise records a pending slot. -/
def Session.recv (s : SessionState) (m : Rat) : SessionState × Except ApiError Unit :=
  match s.running with
  | none => (s, .error .notRunning)
  | some r =>
      if m ∈ r.pendingRecv then (s, .error .duplicateReservation)
      else ({ s with running := some { r with pendingRecv := m :: r.pendingRecv } }, .ok ())

/-- `Session.wait`: rejects when not running, otherwise hands out the
waiter (no state change). -/
def Session.wait (s : SessionState) : Except ApiError Unit :=
  match s.running with
  | none => .error .notRunning
  | some _ => .ok ()

/-- `Session.shutdown`: rejects when not running; otherwise aborts only the
consumer controller with the shutdown sentinel and returns the waiter. -/
def Session.shutdown (s : SessionState) : SessionState × Except ApiError Unit :=
  match s.running with
  | none => (s, .error .notRunning)
  | some r =>
      ({ s with running := some { r with consumerAborted := true } }, .ok ())

/-- `Session.forceShutdown`: rejects when not running; otherwise aborts
both controllers with the shutdown sentinel and returns the waiter. -/
def Session.forceShutdown (s : SessionState) : SessionState × Except ApiError Unit :=
  match s.running with
  | none => (s, .error .notRunning)
  | some r =>
      ({ s with
          running := some { r with consumerAborted := true, producerAborted := true } },
        .ok ())

/--
One decoded inbound JSON value reaches `Session.#handleMessage` (the
consumer pipeline's `WritableStream.write`).  Enabled only while the run
is live on the inbound side: not aborted, not yet settled, source not yet
finished.  The value is classified by `handleMessage`; resolving against
the reservator fulfills a pending slot when one exists (the attempt itself
is recorded either way), other messages reach the `onMessage` hook and
invalid data reaches the `onInvalidMessage` hook.
-/
def deliverStep (s : SessionState) (v : UVal) : SessionState :=
  match s.running with
  | none => s
  | some r =>
      if r.consumerAborted || r.consumerResult.isSome || r.inboundEnd.isSome then s
      else
        match handleMessage v with
        | .resolveTo q msg =>
            if q ∈ r.pendingRecv then
              { s with
                  running := some { r with pendingRecv := r.pendingRecv.erase q },
                  resolveAttempts := s.resolveAttempts ++ [(q, msg)],
                  fulfilled := s.fulfilled ++ [(q, msg)] }
            else
              { s with resolveAttempts := s.resolveAttempts ++ [(q, msg)] }
        | .notifyMessage m => { s with onMessageLog := s.onMessageLog ++ [m] }
        | .notifyInvalid d => { s with onInvalidLog := s.onInvalidLog ++ [d] }

/-- The inbound source ends on its own, with EOF or with a decode/read
error.  Recorded once; ignored after an abort (the pipe is already being
torn down by the signal). -/
def inboundEndStep (s : SessionState) (o : Outcome) : SessionState :=
  match s.running with
  | none => s
  | some r =>
      if r.consumerAborted || r.inboundEnd.isSome || r.consumerResult.isSome then s
      else { s with running := some { r with inboundEnd := some o } }

/--
The consumer promise settles: the `pipeTo` finishes (by abort signal or
because the source ended), `ignoreShutdownError` swallows the shutdown
sentinel, and the `finally` closes the inner channel's writer.  An abort
always carries the sentinel, so an aborted consumer settles `ok`;
otherwise the source's own outcome passes through unchanged.
-/
def consumerSettleStep (s : SessionState) : SessionState :=
  match s.running with
  | none => s
  | some r =>
      if r.consumerResult.isSome then s
      else
        match (if r.consumerAborted then some Outcome.ok else r.inboundEnd) with
        | none => s
        | some o =>
            { s with running := some { r with consumerResult := some o },
                     innerClosed := true }

/-- The outbound pipeline writes the head of the queue to the sink. -/
def writeOutStep (s : SessionState) : SessionState :=
  match s.running with
  | none => s
  | some r =>
      if r.producerAborted || r.producerResult.isSome then s
      else
        match r.outQueue with
        | [] => s
        | v :: rest =>
            { s with running := some { r with outQueue := rest }, sink := s.sink ++ [v] }

/-- The outbound sink's `write` fails while a chunk is in flight; the
producer `pipeTo` rejects with that error. -/
def writeOutFailStep (s : SessionState) (e : ErrKind) : SessionState :=
  match s.running with
  | none => s
  | some r =>
      if r.producerAborted || r.producerResult.isSome || r.outQueue.isEmpty then s
      else { s with running := some { r with producerResult := some (.errored e) } }

/--
The producer promise settles: either its abort signal fired (sentinel,
swallowed by `ignoreShutdownError`, so it settles `ok` without flushing)
or the inner channel is closed and the queue fully drained (natural
completion).
-/
def producerSettleStep (s : SessionState) : SessionState :=
  match s.running with
  | none => s
  | some r =>
      if r.producerResult.isSome then s
      else if r.producerAborted then
        { s with running := some { r with producerResult := some .ok } }
      else if s.innerClosed && r.outQueue.isEmpty then
        { s with running := some { r with producerResult := some .ok } }
      else s

/--
The waiter (`Promise.all([consumer, producer]).finally(...)`) settles:
as soon as either pipeline promise rejects (with the first such error), or
when both have fulfilled.  Its `finally` clears `Session.#running`.
-/
def waiterSettleStep (s : SessionState) : SessionState :=
  match s.running with
  | none => s
  | some r =>
      match r.consumerResult, r.producerResult with
      | some (.errored e), _ =>
          { s with running := none, waiterResult := some (.errored e) }
      | _, some (.errored e) =>
          { s with running := none, waiterResult := some (.errored e) }
      | some .ok, some .ok =>
          { s with running := none, waiterResult := some .ok }
      | _, _ => s

/-- Events of the session transition system: the API calls and the
internal pipeline/promise events. -/
inductive Ev where
  | startEv
  | sendEv (v : UVal)
  | recvEv (m : Rat)
  | waitEv
  | shutdownEv
  | forceShutdownEv
  | deliverEv (v : UVal)
  | inboundEofEv
  | inboundErrorEv (e : ErrKind)
  | writeOutEv
  | writeOutFailEv (e : ErrKind)
  | consumerSettleEv
  | producerSettleEv
  | waiterSettleEv

/-- Apply one event to the state (API results are dropped here; the API
functions themselves expose them). -/
def stepEv (s : SessionState) : Ev → SessionState
  | .startEv => (Session.start s).1
  | .sendEv v => (Session.send s v).1
  | .recvEv m => (Session.recv s m).1
  | .waitEv => s
  | .shutdownEv => (Session.shutdown s).1
  | .forceShutdownEv => (Session.forceShutdown s).1
  | .deliverEv v => deliverStep s v
  | .inboundEofEv => inboundEndStep s .ok
  | .inboundErrorEv e => inboundEndStep s (.errored e)
  | .writeOutEv => writeOutStep s
  | .writeOutFailEv e => writeOutFailStep s e
  | .consumerSettleEv => consumerSettleStep s
  | .producerSettleEv => producerSettleStep s
  | .waiterSettleEv => waiterSettleStep s

/-- Run a list of events from a state. -/
def runEvents (s : SessionState) (l : List Ev) : SessionState :=
  l.foldl stepEv s

/-- The reservation keys pending in the current run (empty when idle). -/
def pendingOf (s : SessionState) : List Rat :=
  match s.running with
  | some r => r.pendingRecv
  | none => []

/-- The recorded inbound termination of the current run (none when idle). -/
def inboundEndOf (s : SessionState) : Option Outcome :=
  match s.running with
  | some r => r.inboundEnd
  | none => none

/-- The consumer promise settlement of the current run (none when idle). -/
def consumerResultOf (s : SessionState) : Option Outcome :=
  match s.running with
  | some r => r.consumerResult
  | none => none

/-! Helper lemmas. -/

theorem typeofIsUndefined_eq_false_iff (p : UVal) :
    typeofIsUndefined p = false ↔ p ≠ .undef := by
  cases p <;> simp [typeofIsUndefined]

theorem handleMessage_resolveTo (v : UVal) (q : Rat) (m : UVal)
    (h : handleMessage v = .resolveTo q m) : q < 0 ∧ m = v := by
  unfold handleMessage at h
  split at h
  · split at h
    · cases h
      exact ⟨by assumption, rfl⟩
    · cases h
  · cases h

/-! ### C9 — the shape check `isMessage` -/

/--
C9, counterexample.  The claim requires the first element of a Message to
be an *integer*, but `isMessage` only checks `typeof data[0] === "number"`:
the two-element array `[1.5, null]` is accepted by the code while the
claimed characterisation rejects it.
-/
theorem isMessage_accepts_noninteger_id :
    isMessage (.uarr [.unum (mkRat 3 2), .unull]) = true ∧
    isMessageClaimed (.uarr [.unum (mkRat 3 2), .unull]) = false := by
  exact ⟨by decide, by decide⟩

/--
C9, amended.  `isMessage data` returns true exactly when `data` is a
two-element array whose first element is a number (not necessarily an
integer) and whose second element is not the `undefined` sentinel.
-/
theorem isMessage_iff_number_pair (d : UVal) :
    isMessage d = true ↔ ∃ q p, d = .uarr [.unum q, p] ∧ p ≠ .undef := by
  cases d with
  | uarr l =>
      match l with
      | [] => simp [isMessage]
      | [a] => simp [isMessage]
      | [a, b] =>
          cases a with
          | unum q =>
              simp only [isMessage, typeofIsNumber, Bool.true_and]
              rw [Bool.not_eq_true', typeofIsUndefined_eq_false_iff]
              constructor
              · intro h
                exact ⟨q, b, rfl, h⟩
              · rintro ⟨q2, p2, heq, hp⟩
                obtain ⟨rfl, rfl⟩ : q2 = q ∧ p2 = b := by
                  injection heq with h1
                  injection h1 with h2 h3
                  injection h3 with h4
                  injection h2 with h5
                  exact ⟨h5.symm, h4.symm⟩
                exact hp
          | undef => simp [isMessage, typeofIsNumber]
          | unull => simp [isMessage, typeofIsNumber]
          | ubool x => simp [isMessage, typeofIsNumber]
          | ustr x => simp [isMessage, typeofIsNumber]
          | uarr x => simp [isMessage, typeofIsNumber]
          | uobj x => simp [isMessage, typeofIsNumber]
      | a :: b :: c :: rest => simp [isMessage]
  | undef => simp [isMessage]
  | unull => simp [isMessage]
  | ubool b => simp [isMessage]
  | unum q => simp [isMessage]
  | ustr st => simp [isMessage]
  | uobj fs => simp [isMessage]

/-! ### C3 — the identifier allocator -/

theorem afterCalls_val (max : Nat) :
    ∀ (k v : Nat), v ≤ max →
      (Indexer.afterCalls ⟨max, v⟩ k).val = (v + k) % (max + 1) := by
  intro k
  induction k with
  | zero =>
      intro v hv
      show v = (v + 0) % (max + 1)
      rw [Nat.mod_eq_of_lt (show v + 0 < max + 1 by omega)]
      omega
  | succ k ih =>
      intro v hv
      show (Indexer.afterCalls (Indexer.next ⟨max, v⟩).2 k).val = (v + (k + 1)) % (max + 1)
      by_cases hmax : max ≤ v
      · have hveq : v = max := le_antisymm hv hmax
        have hnext : (Indexer.next ⟨max, v⟩).2 = ⟨max, 0⟩ := by
          simp [Indexer.next, hmax]
        rw [hnext, ih 0 (Nat.zero_le _)]
        subst hveq
        have harith : v + (k + 1) = k + (v + 1) := by omega
        rw [harith, Nat.add_mod_right]
        simp
      · have hnext : (Indexer.next ⟨max, v⟩).2 = ⟨max, v + 1⟩ := by
          simp [Indexer.next, hmax]
        rw [hnext, ih (v + 1) (by omega)]
        have harith : v + 1 + k = v + (k + 1) := by omega
        rw [harith]

/--
C3, counterexample.  With `max = 3` the allocator's fourth call returns 3,
not `3 % 3 = 0`: the sequence is `0, 1, 2, 3, 0, …` (period `max + 1`),
not the claimed cycle `0, …, max - 1`.
-/
theorem indexer_wraps_after_max :
    newIndexer 3 = .ok ⟨3, 0⟩ ∧ indexerOutput ⟨3, 0⟩ 3 ≠ 3 % 3 := by
  exact ⟨rfl, by decide⟩

/--
C3, amended.  For every configured maximum `max ≥ 2`, the `k`-th call to
`next()` returns `k % (max + 1)` — the cyclic sequence
`0, 1, …, max, 0, 1, …`, wrapping to zero after reaching `max` — and
construction with `max < 2` fails.
-/
theorem indexer_cycle (max k : Nat) :
    (2 ≤ max →
      newIndexer max = .ok ⟨max, 0⟩ ∧ indexerOutput ⟨max, 0⟩ k = k % (max + 1)) ∧
    (max < 2 → newIndexer max = .error "The attribute must be greater than 1") := by
  constructor
  · intro h
    refine ⟨by simp [newIndexer, Nat.not_lt.2 h], ?_⟩
    unfold indexerOutput
    rw [afterCalls_val max k 0 (Nat.zero_le _)]
    simp
  · intro h
    simp [newIndexer, h]

/-- C3, witness: the amended statement at `max = 3, k = 4` and the failing
construction at `max = 1`. -/
theorem indexer_cycle_witness :
    (newIndexer 3 = .ok ⟨3, 0⟩ ∧ indexerOutput ⟨3, 0⟩ 4 = 4 % 4) ∧
    newIndexer 1 = .error "The attribute must be greater than 1" :=
  ⟨(indexer_cycle 3 4).1 (by decide), (indexer_cycle 1 0).2 (by decide)⟩

/-! ### C6 — state errors on every operation in the wrong state -/

/--
C6.  While the session is not running, each of `send`, `recv`, `wait`,
`shutdown` and `forceShutdown` fails immediately with the "Session is not
running" state error (leaving the state unchanged), and while it is
running, `start` fails with the "Session is already running" state error.
In the code the failures are produced synchronously, before any
asynchronous work, either as a thrown error (`start`) or as an immediately
rejected promise (the other five); none is silently ignored.
-/
theorem session_state_errors (s : SessionState) (v : UVal) (m : Rat) (r : RunState) :
    (s.running = none →
      Session.send s v = (s, .error .notRunning) ∧
      Session.recv s m = (s, .error .notRunning) ∧
      Session.wait s = .error .notRunning ∧
      Session.shutdown s = (s, .error .notRunning) ∧
      Session.forceShutdown s = (s, .error .notRunning)) ∧
    (s.running = some r → (Session.start s).2 = .error .alreadyRunning) := by
  constructor
  · intro h
    simp [Session.send, Session.recv, Session.wait, Session.shutdown,
      Session.forceShutdown, h]
  · intro h
    simp [Session.start, h]

/-- C6, witness: the not-running half at a fresh session, the
already-running half right after `start`. -/
theorem session_state_errors_witness :
    (Session.send Session.new .unull = (Session.new, .error .notRunning) ∧
      Session.recv Session.new 0 = (Session.new, .error .notRunning) ∧
      Session.wait Session.new = .error .notRunning ∧
      Session.shutdown Session.new = (Session.new, .error .notRunning) ∧
      Session.forceShutdown Session.new = (Session.new, .error .notRunning)) ∧
    (Session.start (Session.start Session.new).1).2 = .error .alreadyRunning :=
  ⟨(session_state_errors Session.new .unull 0 freshRun).1 rfl,
    (session_state_errors (Session.start Session.new).1 .unull 0 freshRun).2 rfl⟩

/-! ### C8 — a second shutdown call -/

/--
C8, counterexample.  After `start`, one `send` (whose write is still
pending) and a first `shutdown`, the session is still running
(`#running` is cleared only when the waiter settles), so a second
`shutdown` call does not fail with a state error: it succeeds.
-/
theorem second_shutdown_not_state_error :
    (runEvents Session.new [.startEv, .sendEv .unull, .shutdownEv]).running.isSome = true ∧
    (Session.shutdown
      (runEvents Session.new [.startEv, .sendEv .unull, .shutdownEv])).2 = .ok () :=
  ⟨rfl, rfl⟩

/--
C8, amended.  A second `shutdown` issued while the first one is taking
effect (the session still running, the consumer controller already
aborted) succeeds and is a no-op — aborting an already-aborted controller
changes nothing and the same waiter is returned — and only once the
session has returned to idle does a further `shutdown` or `forceShutdown`
fail with the "Session is not running" state error.
-/
theorem second_shutdown_idempotent (s s2 : SessionState) (r : RunState)
    (h : s.running = some r) (ha : r.consumerAborted = true)
    (h2 : s2.running = none) :
    Session.shutdown s = (s, .ok ()) ∧
    Session.shutdown s2 = (s2, .error .notRunning) ∧
    Session.forceShutdown s2 = (s2, .error .notRunning) := by
  refine ⟨?_, ?_, ?_⟩
  · obtain ⟨run, ic, sk, om, oi, ra, fu, wr⟩ := s
    simp only at h
    subst h
    obtain ⟨pr, oq, ca, pa, ie, cr, prr⟩ := r
    simp only at ha
    subst ha
    rfl
  · simp [Session.shutdown, h2]
  · simp [Session.forceShutdown, h2]

/-- C8, witness: the amended statement at the concrete post-shutdown state
with a pending write and at the fully terminated state. -/
theorem second_shutdown_idempotent_witness :
    Session.shutdown (runEvents Session.new [.startEv, .sendEv .unull, .shutdownEv]) =
      (runEvents Session.new [.startEv, .sendEv .unull, .shutdownEv], .ok ()) ∧
    Session.shutdown Session.new = (Session.new, .error .notRunning) ∧
    Session.forceShutdown Session.new = (Session.new, .error .notRunning) :=
  second_shutdown_idempotent
    (runEvents Session.new [.startEv, .sendEv .unull, .shutdownEv]) Session.new
    ⟨[], [.unull], true, false, none, none, none⟩ rfl rfl rfl

/-! ### C7 — restarting a terminated session -/

/-- The full graceful run used to reach idle again: start, shutdown, both
pipelines settle, the waiter settles. -/
def fullRunTrace : List Ev :=
  [.startEv, .shutdownEv, .consumerSettleEv, .producerSettleEv, .waiterSettleEv]

/--
C7, counterexample.  After a complete run (the session returned to idle
with a fulfilled waiter), `start()` succeeds — but the restarted session is
not functional: the inner channel was created once in the constructor and
closed by the previous run's consumer `finally`, so a subsequent `send`
rejects and its data never reaches the outbound sink.
-/
theorem restart_not_functional :
    (runEvents Session.new fullRunTrace).running = none ∧
    (runEvents Session.new fullRunTrace).waiterResult = some .ok ∧
    (Session.start (runEvents Session.new fullRunTrace)).2 = .ok () ∧
    (Session.send (Session.start (runEvents Session.new fullRunTrace)).1 .unull).2 =
      .error .innerWriterClosed ∧
    (runEvents (runEvents Session.new fullRunTrace)
      [.startEv, .sendEv .unull, .writeOutEv]).sink = [] :=
  ⟨rfl, rfl, rfl, rfl, rfl⟩

/--
C7, amended.  From any idle state whose previous run has closed the inner
channel, `start()` succeeds (no state error) and installs a fresh run, but
the restarted session is not fully functional: every subsequent `send`
fails — the write on the closed inner channel rejects — leaving the state
unchanged, so no data sent after the restart is ever delivered to the
outbound sink.
-/
theorem restart_send_fails (s : SessionState) (v : UVal)
    (h1 : s.running = none) (h2 : s.innerClosed = true) :
    (Session.start s).2 = .ok () ∧
    (Session.start s).1.running = some freshRun ∧
    Session.send (Session.start s).1 v = ((Session.start s).1, .error .innerWriterClosed) := by
  refine ⟨?_, ?_, ?_⟩
  · simp [Session.start, h1]
  · simp [Session.start, h1]
  · simp [Session.start, Session.send, h1, h2]

/-- C7, witness: the amended statement at the concrete state reached by a
complete graceful run. -/
theorem restart_send_fails_witness :
    (Session.start (runEvents Session.new fullRunTrace)).2 = .ok () ∧
    (Session.start (runEvents Session.new fullRunTrace)).1.running = some freshRun ∧
    Session.send (Session.start (runEvents Session.new fullRunTrace)).1 .unull =
      ((Session.start (runEvents Session.new fullRunTrace)).1, .error .innerWriterClosed) :=
  restart_send_fails (runEvents Session.new fullRunTrace) .unull rfl rfl

/-! ### C4 — graceful shutdown flushes the outbound queue -/

/-- Events allowed while checking the graceful-shutdown drain: everything
except a forced shutdown, a sink write failure and a restart (the claim is
about one gracefully shut-down run whose delayed writes eventually
succeed). -/
def evSafeForDrain : Ev → Bool
  | .forceShutdownEv => false
  | .writeOutFailEv _ => false
  | .startEv => false
  | _ => true

/--
Invariant holding from the moment `shutdown` returns, with `base` the sink
content followed by the queued outbound items at that moment: while the
run lives, the consumer is aborted (and can only settle `ok`), the
producer is untouched and its natural completion certifies that
everything counted in `base` has reached the sink; once the run has ended,
the waiter has fulfilled and the sink contains all of `base`.
-/
def FlushInv (base : List UVal) (s : SessionState) : Prop :=
  (∃ r, s.running = some r ∧ s.waiterResult = none ∧
      r.consumerAborted = true ∧ r.producerAborted = false ∧
      (r.consumerResult = none ∨ r.consumerResult = some .ok) ∧
      ((r.producerResult = none ∧ ∃ w, s.sink ++ r.outQueue = base ++ w) ∨
        (r.producerResult = some .ok ∧ ∃ w, s.sink = base ++ w))) ∨
  (s.running = none ∧ s.waiterResult = some .ok ∧ ∃ w, s.sink = base ++ w)

theorem flushInv_step (base : List UVal) (s : SessionState) (ev : Ev)
    (hsafe : evSafeForDrain ev = true) (hinv : FlushInv base s) :
    FlushInv base (stepEv s ev) := by
  rcases hinv with ⟨r, h, hwr, hca, hpa, hcr, hprod⟩ | ⟨h, hwr, w, hsink⟩
  · cases ev with
    | startEv => cases hsafe
    | forceShutdownEv => cases hsafe
    | writeOutFailEv e => cases hsafe
    | waitEv => exact Or.inl ⟨r, h, hwr, hca, hpa, hcr, hprod⟩
    | sendEv v =>
        by_cases hic : s.innerClosed
        · have hst : stepEv s (.sendEv v) = s := by
            simp [stepEv, Session.send, h, hic]
          rw [hst]
          exact Or.inl ⟨r, h, hwr, hca, hpa, hcr, hprod⟩
        · have hst : stepEv s (.sendEv v) =
              { s with running := some { r with outQueue := r.outQueue ++ [v] } } := by
            simp [stepEv, Session.send, h, hic]
          rw [hst]
          refine Or.inl ⟨{ r with outQueue := r.outQueue ++ [v] }, rfl, hwr, hca, hpa, hcr, ?_⟩
          rcases hprod with ⟨hn, w, hw⟩ | ⟨ho, w, hw⟩
          · refine Or.inl ⟨hn, w ++ [v], ?_⟩
            show s.sink ++ (r.outQueue ++ [v]) = base ++ (w ++ [v])
            rw [← List.append_assoc, hw, List.append_assoc]
          · exact Or.inr ⟨ho, w, hw⟩
    | recvEv m =>
        by_cases hmem : m ∈ r.pendingRecv
        · have hst : stepEv s (.recvEv m) = s := by
            simp [stepEv, Session.recv, h, hmem]
          rw [hst]
          exact Or.inl ⟨r, h, hwr, hca, hpa, hcr, hprod⟩
        · have hst : stepEv s (.recvEv m) =
              { s with running := some { r with pendingRecv := m :: r.pendingRecv } } := by
            simp [stepEv, Session.recv, h, hmem]
          rw [hst]
          exact Or.inl ⟨{ r with pendingRecv := m :: r.pendingRecv }, rfl, hwr, hca, hpa, hcr, hprod⟩
    | shutdownEv =>
        have hst : stepEv s .shutdownEv =
            { s with running := some { r with consumerAborted := true } } := by
          simp [stepEv, Session.shutdown, h]
        rw [hst]
        exact Or.inl ⟨{ r with consumerAborted := true }, rfl, hwr, rfl, hpa, hcr, hprod⟩
    | deliverEv v =>
        have hst : stepEv s (.deliverEv v) = s := by
          simp [stepEv, deliverStep, h, hca]
        rw [hst]
        exact Or.inl ⟨r, h, hwr, hca, hpa, hcr, hprod⟩
    | inboundEofEv =>
        have hst : stepEv s .inboundEofEv = s := by
          simp [stepEv, inboundEndStep, h, hca]
        rw [hst]
        exact Or.inl ⟨r, h, hwr, hca, hpa, hcr, hprod⟩
    | inboundErrorEv e =>
        have hst : stepEv s (.inboundErrorEv e) = s := by
          simp [stepEv, inboundEndStep, h, hca]
        rw [hst]
        exact Or.inl ⟨r, h, hwr, hca, hpa, hcr, hprod⟩
    | writeOutEv =>
        rcases hprod with ⟨hn, w, hw⟩ | ⟨ho, w, hw⟩
        · cases hq : r.outQueue with
          | nil =>
              have hst : stepEv s .writeOutEv = s := by
                simp [stepEv, writeOutStep, h, hpa, hn, hq]
              rw [hst]
              exact Or.inl ⟨r, h, hwr, hca, hpa, hcr, Or.inl ⟨hn, w, hw⟩⟩
          | cons v rest =>
              have hst : stepEv s .writeOutEv =
                  { s with running := some { r with outQueue := rest },
                           sink := s.sink ++ [v] } := by
                simp [stepEv, writeOutStep, h, hpa, hn, hq]
              rw [hst]
              refine Or.inl ⟨{ r with outQueue := rest }, rfl, hwr, hca, hpa, hcr,
                Or.inl ⟨hn, w, ?_⟩⟩
              show (s.sink ++ [v]) ++ rest = base ++ w
              rw [List.append_assoc]
              rw [hq] at hw
              simpa using hw
        · have hst : stepEv s .writeOutEv = s := by
            simp [stepEv, writeOutStep, h, ho]
          rw [hst]
          exact Or.inl ⟨r, h, hwr, hca, hpa, hcr, Or.inr ⟨ho, w, hw⟩⟩
    | consumerSettleEv =>
        cases hcr with
        | inl hnone =>
            have hst : stepEv s .consumerSettleEv =
                { s with running := some { r with consumerResult := some .ok },
                         innerClosed := true } := by
              simp [stepEv, consumerSettleStep, h, hnone, hca]
            rw [hst]
            exact Or.inl ⟨{ r with consumerResult := some .ok }, rfl, hwr, hca, hpa,
              Or.inr rfl, hprod⟩
        | inr hok =>
            have hst : stepEv s .consumerSettleEv = s := by
              simp [stepEv, consumerSettleStep, h, hok]
            rw [hst]
            exact Or.inl ⟨r, h, hwr, hca, hpa, Or.inr hok, hprod⟩
    | producerSettleEv =>
        rcases hprod with ⟨hn, w, hw⟩ | ⟨ho, w, hw⟩
        · by_cases hcond : (s.innerClosed && r.outQueue.isEmpty) = true
          · have hst : stepEv s .producerSettleEv =
                { s with running := some { r with producerResult := some .ok } } := by
              simp [stepEv, producerSettleStep, h, hn, hpa, hcond]
            rw [hst]
            refine Or.inl ⟨{ r with producerResult := some .ok }, rfl, hwr, hca, hpa, hcr,
              Or.inr ⟨rfl, w, ?_⟩⟩
            have hqe : r.outQueue = [] := by
              have hand : s.innerClosed = true ∧ r.outQueue.isEmpty = true := by
                simpa [Bool.and_eq_true] using hcond
              exact List.isEmpty_iff.1 hand.2
            rw [hqe] at hw
            simpa using hw
          · have hst : stepEv s .producerSettleEv = s := by
              simp only [stepEv, producerSettleStep, h, hn, hpa]
              simp [hcond]
            rw [hst]
            exact Or.inl ⟨r, h, hwr, hca, hpa, hcr, Or.inl ⟨hn, w, hw⟩⟩
        · have hst : stepEv s .producerSettleEv = s := by
            simp [stepEv, producerSettleStep, h, ho]
          rw [hst]
          exact Or.inl ⟨r, h, hwr, hca, hpa, hcr, Or.inr ⟨ho, w, hw⟩⟩
    | waiterSettleEv =>
        cases hcr with
        | inl hcnone =>
            have hst : stepEv s .waiterSettleEv = s := by
              rcases hprod with ⟨hn, -⟩ | ⟨ho, -⟩
              · simp [stepEv, waiterSettleStep, h, hcnone, hn]
              · simp [stepEv, waiterSettleStep, h, hcnone, ho]
            rw [hst]
            exact Or.inl ⟨r, h, hwr, hca, hpa, Or.inl hcnone, hprod⟩
        | inr hcok =>
            rcases hprod with ⟨hn, w, hw⟩ | ⟨ho, w, hw⟩
            · have hst : stepEv s .waiterSettleEv = s := by
                simp [stepEv, waiterSettleStep, h, hcok, hn]
              rw [hst]
              exact Or.inl ⟨r, h, hwr, hca, hpa, Or.inr hcok, Or.inl ⟨hn, w, hw⟩⟩
            · have hst : stepEv s .waiterSettleEv =
                  { s with running := none, waiterResult := some .ok } := by
                simp [stepEv, waiterSettleStep, h, hcok, ho]
              rw [hst]
              exact Or.inr ⟨rfl, rfl, w, hw⟩
  · have hid : stepEv s ev = s := by
      cases ev with
      | startEv => exact Bool.noConfusion hsafe
      | forceShutdownEv => exact Bool.noConfusion hsafe
      | writeOutFailEv e => exact Bool.noConfusion hsafe
      | sendEv v => simp [stepEv, Session.send, h]
      | recvEv m => simp [stepEv, Session.recv, h]
      | waitEv => rfl
      | shutdownEv => simp [stepEv, Session.shutdown, h]
      | deliverEv v => simp [stepEv, deliverStep, h]
      | inboundEofEv => simp [stepEv, inboundEndStep, h]
      | inboundErrorEv e => simp [stepEv, inboundEndStep, h]
      | writeOutEv => simp [stepEv, writeOutStep, h]
      | consumerSettleEv => simp [stepEv, consumerSettleStep, h]
      | producerSettleEv => simp [stepEv, producerSettleStep, h]
      | waiterSettleEv => simp [stepEv, waiterSettleStep, h]
    rw [hid]
    exact Or.inr ⟨h, hwr, w, hsink⟩

theorem flushInv_run (base : List UVal) (l : List Ev)
    (hsafe : ∀ ev ∈ l, evSafeForDrain ev = true) :
    ∀ s, FlushInv base s → FlushInv base (runEvents s l) := by
  induction l with
  | nil => exact fun s hs => hs
  | cons ev l ih =>
      intro s hs
      have h1 := flushInv_step base s ev (hsafe ev (List.mem_cons_self ev l)) hs
      have h2 := ih (fun e he => hsafe e (List.mem_cons_of_mem ev he)) (stepEv s ev) h1
      simpa [runEvents, List.foldl] using h2

/-- Draining run of one gracefully shut-down session: write out every
queued item, then let the consumer, the producer and the waiter settle. -/
def drainTrace (r : RunState) : List Ev :=
  List.replicate r.outQueue.length .writeOutEv ++
    [.consumerSettleEv, .producerSettleEv, .waiterSettleEv]

theorem writeOut_drain (q : List UVal) :
    ∀ (s : SessionState) (r : RunState), s.running = some r →
      r.producerAborted = false → r.producerResult = none → r.outQueue = q →
      runEvents s (List.replicate q.length .writeOutEv) =
        { s with running := some { r with outQueue := [] }, sink := s.sink ++ q } := by
  induction q with
  | nil =>
      intro s r h hpa hpr hq
      obtain ⟨run, ic, sk, om, oi, ra, fu, wr⟩ := s
      simp only at h
      subst h
      obtain ⟨pr, oq, ca, pa, ie, cr, prr⟩ := r
      simp only at hq hpa hpr
      subst hq
      simp [runEvents]
  | cons v rest ih =>
      intro s r h hpa hpr hq
      have hst : stepEv s .writeOutEv =
          { s with running := some { r with outQueue := rest }, sink := s.sink ++ [v] } := by
        simp [stepEv, writeOutStep, h, hpa, hpr, hq]
      have hrepl : List.replicate (v :: rest).length Ev.writeOutEv =
          Ev.writeOutEv :: List.replicate rest.length Ev.writeOutEv := rfl
      rw [hrepl]
      have hrun : runEvents s (Ev.writeOutEv :: List.replicate rest.length Ev.writeOutEv) =
          runEvents (stepEv s .writeOutEv) (List.replicate rest.length Ev.writeOutEv) := rfl
      rw [hrun, hst]
      have := ih { s with running := some { r with outQueue := rest }, sink := s.sink ++ [v] }
        { r with outQueue := rest } rfl hpa hpr rfl
      rw [this]
      simp

/--
C4.  Calling `shutdown()` on a running session aborts only the consumer
controller (the producer's controller and pipeline are untouched), and
from that point, along any continuation in which the queued writes are
merely delayed (no forced shutdown, no sink failure), the waiter can only
settle after every outbound item enqueued before the shutdown has been
written to the sink — and once the delayed writes complete (the drain
run), it fulfills.
-/
theorem shutdown_flushes (s : SessionState) (r : RunState)
    (hrun : s.running = some r)
    (hpa : r.producerAborted = false) (hpr : r.producerResult = none)
    (hcr : r.consumerResult = none) (hwr : s.waiterResult = none) :
    Session.shutdown s =
      ({ s with running := some { r with consumerAborted := true } }, .ok ()) ∧
    (∀ l, (∀ ev ∈ l, evSafeForDrain ev = true) →
      ∀ o, (runEvents (Session.shutdown s).1 l).waiterResult = some o →
        o = .ok ∧
        ∃ w, (runEvents (Session.shutdown s).1 l).sink = (s.sink ++ r.outQueue) ++ w) ∧
    ((runEvents (Session.shutdown s).1 (drainTrace r)).waiterResult = some .ok ∧
      (runEvents (Session.shutdown s).1 (drainTrace r)).sink = s.sink ++ r.outQueue ∧
      (runEvents (Session.shutdown s).1 (drainTrace r)).running = none) := by
  have hshut : Session.shutdown s =
      ({ s with running := some { r with consumerAborted := true } }, .ok ()) := by
    simp [Session.shutdown, hrun]
  have hstartinv : FlushInv (s.sink ++ r.outQueue) (Session.shutdown s).1 := by
    rw [hshut]
    exact Or.inl ⟨{ r with consumerAborted := true }, rfl, hwr, rfl, hpa, Or.inl hcr,
      Or.inl ⟨hpr, [], by simp⟩⟩
  refine ⟨hshut, ?_, ?_⟩
  · intro l hl o ho
    have hinv := flushInv_run (s.sink ++ r.outQueue) l hl (Session.shutdown s).1 hstartinv
    rcases hinv with ⟨r2, h2, hwr2, -⟩ | ⟨-, hwr2, w, hsink2⟩
    · rw [ho] at hwr2
      cases hwr2
    · rw [ho] at hwr2
      cases hwr2
      exact ⟨rfl, w, hsink2⟩
  · rw [hshut]
    have hdrain := writeOut_drain r.outQueue
      { s with running := some { r with consumerAborted := true } }
      { r with consumerAborted := true } rfl hpa hpr rfl
    have hsplit : ∀ st : SessionState, runEvents st (drainTrace r) =
        runEvents (runEvents st (List.replicate r.outQueue.length .writeOutEv))
          [.consumerSettleEv, .producerSettleEv, .waiterSettleEv] := by
      intro st
      simp [drainTrace, runEvents, List.foldl_append]
    rw [hsplit, hdrain]
    refine ⟨?_, ?_, ?_⟩ <;>
      simp [runEvents, stepEv, consumerSettleStep, producerSettleStep, waiterSettleStep,
        hcr, hpr, hpa]

/-- C4, witness: a running session with one queued outbound item,
exercised along its drain run and along the empty continuation. -/
theorem shutdown_flushes_witness :
    Session.shutdown (Session.send (Session.start Session.new).1 .unull).1 =
      ({ (Session.send (Session.start Session.new).1 .unull).1 with
          running := some { freshRun with outQueue := [.unull], consumerAborted := true } },
        .ok ()) ∧
    (∀ l, (∀ ev ∈ l, evSafeForDrain ev = true) →
      ∀ o, (runEvents (Session.shutdown
          (Session.send (Session.start Session.new).1 .unull).1).1 l).waiterResult = some o →
        o = .ok ∧
        ∃ w, (runEvents (Session.shutdown
          (Session.send (Session.start Session.new).1 .unull).1).1 l).sink =
            ((Session.send (Session.start Session.new).1 .unull).1.sink ++
              [.unull]) ++ w) ∧
    ((runEvents (Session.shutdown (Session.send (Session.start Session.new).1 .unull).1).1
        (drainTrace { freshRun with outQueue := [.unull] })).waiterResult = some .ok ∧
      (runEvents (Session.shutdown (Session.send (Session.start Session.new).1 .unull).1).1
        (drainTrace { freshRun with outQueue := [.unull] })).sink =
          (Session.send (Session.start Session.new).1 .unull).1.sink ++ [.unull] ∧
      (runEvents (Session.shutdown (Session.send (Session.start Session.new).1 .unull).1).1
        (drainTrace { freshRun with outQueue := [.unull] })).running = none) :=
  shutdown_flushes (Session.send (Session.start Session.new).1 .unull).1
    { freshRun with outQueue := [.unull] } rfl rfl rfl rfl rfl

/-! ### C5 — what makes the waiter reject -/

/-- A genuine (non-sentinel) pipeline error recorded anywhere in the
state: as the inbound termination cause, as a pipeline settlement or as
the waiter's settlement. -/
def mentionsErr (s : SessionState) (e : ErrKind) : Prop :=
  (∃ r, s.running = some r ∧
      (r.inboundEnd = some (.errored e) ∨ r.consumerResult = some (.errored e) ∨
        r.producerResult = some (.errored e))) ∨
  s.waiterResult = some (.errored e)

theorem mentionsErr_step (s : SessionState) (ev : Ev) (e : ErrKind)
    (h : mentionsErr (stepEv s ev) e) :
    mentionsErr s e ∨ ev = .inboundErrorEv e ∨ ev = .writeOutFailEv e := by
  cases hr : s.running with
  | none =>
      cases ev with
      | startEv =>
          have hst : stepEv s .startEv =
              { s with running := some freshRun, waiterResult := none } := by
            simp [stepEv, Session.start, hr]
          rw [hst] at h
          rcases h with ⟨r2, h2, hc⟩ | hw
          · obtain rfl : freshRun = r2 := Option.some.inj h2
            rcases hc with hc | hc | hc <;> cases hc
          · cases hw
      | sendEv v =>
          have hst : stepEv s (.sendEv v) = s := by simp [stepEv, Session.send, hr]
          rw [hst] at h
          exact Or.inl h
      | recvEv m =>
          have hst : stepEv s (.recvEv m) = s := by simp [stepEv, Session.recv, hr]
          rw [hst] at h
          exact Or.inl h
      | waitEv => exact Or.inl h
      | shutdownEv =>
          have hst : stepEv s .shutdownEv = s := by simp [stepEv, Session.shutdown, hr]
          rw [hst] at h
          exact Or.inl h
      | forceShutdownEv =>
          have hst : stepEv s .forceShutdownEv = s := by
            simp [stepEv, Session.forceShutdown, hr]
          rw [hst] at h
          exact Or.inl h
      | deliverEv v =>
          have hst : stepEv s (.deliverEv v) = s := by simp [stepEv, deliverStep, hr]
          rw [hst] at h
          exact Or.inl h
      | inboundEofEv =>
          have hst : stepEv s .inboundEofEv = s := by simp [stepEv, inboundEndStep, hr]
          rw [hst] at h
          exact Or.inl h
      | inboundErrorEv e2 =>
          have hst : stepEv s (.inboundErrorEv e2) = s := by
            simp [stepEv, inboundEndStep, hr]
          rw [hst] at h
          exact Or.inl h
      | writeOutEv =>
          have hst : stepEv s .writeOutEv = s := by simp [stepEv, writeOutStep, hr]
          rw [hst] at h
          exact Or.inl h
      | writeOutFailEv e2 =>
          have hst : stepEv s (.writeOutFailEv e2) = s := by
            simp [stepEv, writeOutFailStep, hr]
          rw [hst] at h
          exact Or.inl h
      | consumerSettleEv =>
          have hst : stepEv s .consumerSettleEv = s := by
            simp [stepEv, consumerSettleStep, hr]
          rw [hst] at h
          exact Or.inl h
      | producerSettleEv =>
          have hst : stepEv s .producerSettleEv = s := by
            simp [stepEv, producerSettleStep, hr]
          rw [hst] at h
          exact Or.inl h
      | waiterSettleEv =>
          have hst : stepEv s .waiterSettleEv = s := by
            simp [stepEv, waiterSettleStep, hr]
          rw [hst] at h
          exact Or.inl h
  | some r =>
      cases ev with
      | startEv =>
          have hst : stepEv s .startEv = s := by simp [stepEv, Session.start, hr]
          rw [hst] at h
          exact Or.inl h
      | sendEv v =>
          by_cases hic : s.innerClosed
          · have hst : stepEv s (.sendEv v) = s := by simp [stepEv, Session.send, hr, hic]
            rw [hst] at h
            exact Or.inl h
          · have hst : stepEv s (.sendEv v) =
                { s with running := some { r with outQueue := r.outQueue ++ [v] } } := by
              simp [stepEv, Session.send, hr, hic]
            rw [hst] at h
            rcases h with ⟨r2, h2, hc⟩ | hw
            · obtain rfl : { r with outQueue := r.outQueue ++ [v] } = r2 :=
                Option.some.inj h2
              exact Or.inl (Or.inl ⟨r, hr, hc⟩)
            · exact Or.inl (Or.inr hw)
      | recvEv m =>
          by_cases hmem : m ∈ r.pendingRecv
          · have hst : stepEv s (.recvEv m) = s := by simp [stepEv, Session.recv, hr, hmem]
            rw [hst] at h
            exact Or.inl h
          · have hst : stepEv s (.recvEv m) =
                { s with running := some { r with pendingRecv := m :: r.pendingRecv } } := by
              simp [stepEv, Session.recv, hr, hmem]
            rw [hst] at h
            rcases h with ⟨r2, h2, hc⟩ | hw
            · obtain rfl : { r with pendingRecv := m :: r.pendingRecv } = r2 :=
                Option.some.inj h2
              exact Or.inl (Or.inl ⟨r, hr, hc⟩)
            · exact Or.inl (Or.inr hw)
      | waitEv => exact Or.inl h
      | shutdownEv =>
          have hst : stepEv s .shutdownEv =
              { s with running := some { r with consumerAborted := true } } := by
            simp [stepEv, Session.shutdown, hr]
          rw [hst] at h
          rcases h with ⟨r2, h2, hc⟩ | hw
          · obtain rfl : { r with consumerAborted := true } = r2 := Option.some.inj h2
            exact Or.inl (Or.inl ⟨r, hr, hc⟩)
          · exact Or.inl (Or.inr hw)
      | forceShutdownEv =>
          have hst : stepEv s .forceShutdownEv = { s with
              running := some { r with consumerAborted := true, producerAborted := true } } := by
            simp [stepEv, Session.forceShutdown, hr]
          rw [hst] at h
          rcases h with ⟨r2, h2, hc⟩ | hw
          · obtain rfl : { r with consumerAborted := true, producerAborted := true } = r2 :=
              Option.some.inj h2
            exact Or.inl (Or.inl ⟨r, hr, hc⟩)
          · exact Or.inl (Or.inr hw)
      | deliverEv v =>
          by_cases hg : (r.consumerAborted || r.consumerResult.isSome ||
              r.inboundEnd.isSome) = true
          · have hst : stepEv s (.deliverEv v) = s := by simp [stepEv, deliverStep, hr, hg]
            rw [hst] at h
            exact Or.inl h
          · rw [Bool.not_eq_true] at hg
            cases hhm : handleMessage v with
            | resolveTo q msg =>
                by_cases hmem : q ∈ r.pendingRecv
                · have hst : stepEv s (.deliverEv v) =
                      { s with
                        running := some { r with pendingRecv := r.pendingRecv.erase q },
                        resolveAttempts := s.resolveAttempts ++ [(q, msg)],
                        fulfilled := s.fulfilled ++ [(q, msg)] } := by
                    simp [stepEv, deliverStep, hr, hg, hhm, hmem]
                  rw [hst] at h
                  rcases h with ⟨r2, h2, hc⟩ | hw
                  · obtain rfl : { r with pendingRecv := r.pendingRecv.erase q } = r2 :=
                      Option.some.inj h2
                    exact Or.inl (Or.inl ⟨r, hr, hc⟩)
                  · exact Or.inl (Or.inr hw)
                · have hst : stepEv s (.deliverEv v) =
                      { s with resolveAttempts := s.resolveAttempts ++ [(q, msg)] } := by
                    simp [stepEv, deliverStep, hr, hg, hhm, hmem]
                  rw [hst] at h
                  rcases h with ⟨r2, h2, hc⟩ | hw
                  · have h2b : s.running = some r2 := h2
                    rw [hr] at h2b
                    obtain rfl : r = r2 := Option.some.inj h2b
                    exact Or.inl (Or.inl ⟨r, hr, hc⟩)
                  · exact Or.inl (Or.inr hw)
            | notifyMessage m =>
                have hst : stepEv s (.deliverEv v) =
                    { s with onMessageLog := s.onMessageLog ++ [m] } := by
                  simp [stepEv, deliverStep, hr, hg, hhm]
                rw [hst] at h
                rcases h with ⟨r2, h2, hc⟩ | hw
                · have h2b : s.running = some r2 := h2
                  rw [hr] at h2b
                  obtain rfl : r = r2 := Option.some.inj h2b
                  exact Or.inl (Or.inl ⟨r, hr, hc⟩)
                · exact Or.inl (Or.inr hw)
            | notifyInvalid d =>
                have hst : stepEv s (.deliverEv v) =
                    { s with onInvalidLog := s.onInvalidLog ++ [d] } := by
                  simp [stepEv, deliverStep, hr, hg, hhm]
                rw [hst] at h
                rcases h with ⟨r2, h2, hc⟩ | hw
                · have h2b : s.running = some r2 := h2
                  rw [hr] at h2b
                  obtain rfl : r = r2 := Option.some.inj h2b
                  exact Or.inl (Or.inl ⟨r, hr, hc⟩)
                · exact Or.inl (Or.inr hw)
      | inboundEofEv =>
          by_cases hg : (r.consumerAborted || r.inboundEnd.isSome ||
              r.consumerResult.isSome) = true
          · have hst : stepEv s .inboundEofEv = s := by
              simp [stepEv, inboundEndStep, hr, hg]
            rw [hst] at h
            exact Or.inl h
          · rw [Bool.not_eq_true] at hg
            have hst : stepEv s .inboundEofEv =
                { s with running := some { r with inboundEnd := some .ok } } := by
              simp [stepEv, inboundEndStep, hr, hg]
            rw [hst] at h
            rcases h with ⟨r2, h2, hc⟩ | hw
            · obtain rfl : { r with inboundEnd := some .ok } = r2 := Option.some.inj h2
              rcases hc with hc | hc | hc
              · cases hc
              · exact Or.inl (Or.inl ⟨r, hr, Or.inr (Or.inl hc)⟩)
              · exact Or.inl (Or.inl ⟨r, hr, Or.inr (Or.inr hc)⟩)
            · exact Or.inl (Or.inr hw)
      | inboundErrorEv e2 =>
          by_cases hg : (r.consumerAborted || r.inboundEnd.isSome ||
              r.consumerResult.isSome) = true
          · have hst : stepEv s (.inboundErrorEv e2) = s := by
              simp [stepEv, inboundEndStep, hr, hg]
            rw [hst] at h
            exact Or.inl h
          · rw [Bool.not_eq_true] at hg
            have hst : stepEv s (.inboundErrorEv e2) =
                { s with running := some { r with inboundEnd := some (.errored e2) } } := by
              simp [stepEv, inboundEndStep, hr, hg]
            rw [hst] at h
            rcases h with ⟨r2, h2, hc⟩ | hw
            · obtain rfl : { r with inboundEnd := some (.errored e2) } = r2 :=
                Option.some.inj h2
              rcases hc with hc | hc | hc
              · have he : e2 = e := by
                  have := Option.some.inj hc
                  cases this
                  rfl
                exact Or.inr (Or.inl (by rw [he]))
              · exact Or.inl (Or.inl ⟨r, hr, Or.inr (Or.inl hc)⟩)
              · exact Or.inl (Or.inl ⟨r, hr, Or.inr (Or.inr hc)⟩)
            · exact Or.inl (Or.inr hw)
      | writeOutEv =>
          by_cases hg : (r.producerAborted || r.producerResult.isSome) = true
          · have hst : stepEv s .writeOutEv = s := by simp [stepEv, writeOutStep, hr, hg]
            rw [hst] at h
            exact Or.inl h
          · rw [Bool.not_eq_true] at hg
            cases hq : r.outQueue with
            | nil =>
                have hst : stepEv s .writeOutEv = s := by
                  simp [stepEv, writeOutStep, hr, hg, hq]
                rw [hst] at h
                exact Or.inl h
            | cons v rest =>
                have hst : stepEv s .writeOutEv =
                    { s with running := some { r with outQueue := rest },
                             sink := s.sink ++ [v] } := by
                  simp [stepEv, writeOutStep, hr, hg, hq]
                rw [hst] at h
                rcases h with ⟨r2, h2, hc⟩ | hw
                · obtain rfl : { r with outQueue := rest } = r2 := Option.some.inj h2
                  exact Or.inl (Or.inl ⟨r, hr, hc⟩)
                · exact Or.inl (Or.inr hw)
      | writeOutFailEv e2 =>
          by_cases hg : (r.producerAborted || r.producerResult.isSome ||
              r.outQueue.isEmpty) = true
          · have hst : stepEv s (.writeOutFailEv e2) = s := by
              simp [stepEv, writeOutFailStep, hr, hg]
            rw [hst] at h
            exact Or.inl h
          · rw [Bool.not_eq_true] at hg
            have hst : stepEv s (.writeOutFailEv e2) = { s with
                running := some { r with producerResult := some (.errored e2) } } := by
              simp [stepEv, writeOutFailStep, hr, hg]
            rw [hst] at h
            rcases h with ⟨r2, h2, hc⟩ | hw
            · obtain rfl : { r with producerResult := some (.errored e2) } = r2 :=
                Option.some.inj h2
              rcases hc with hc | hc | hc
              · exact Or.inl (Or.inl ⟨r, hr, Or.inl hc⟩)
              · exact Or.inl (Or.inl ⟨r, hr, Or.inr (Or.inl hc)⟩)
              · have he : e2 = e := by
                  have := Option.some.inj hc
                  cases this
                  rfl
                exact Or.inr (Or.inr (by rw [he]))
            · exact Or.inl (Or.inr hw)
      | consumerSettleEv =>
          by_cases hs1 : r.consumerResult.isSome = true
          · have hst : stepEv s .consumerSettleEv = s := by
              simp [stepEv, consumerSettleStep, hr, hs1]
            rw [hst] at h
            exact Or.inl h
          · rw [Bool.not_eq_true] at hs1
            cases hsettle : (if r.consumerAborted then some Outcome.ok else r.inboundEnd) with
            | none =>
                have hst : stepEv s .consumerSettleEv = s := by
                  simp only [stepEv, consumerSettleStep, hr, hs1]
                  rw [hsettle]
                  simp
                rw [hst] at h
                exact Or.inl h
            | some o =>
                have hst : stepEv s .consumerSettleEv =
                    { s with running := some { r with consumerResult := some o },
                             innerClosed := true } := by
                  simp only [stepEv, consumerSettleStep, hr, hs1]
                  rw [hsettle]
                  simp
                rw [hst] at h
                rcases h with ⟨r2, h2, hc⟩ | hw
                · obtain rfl : { r with consumerResult := some o } = r2 :=
                    Option.some.inj h2
                  rcases hc with hc | hc | hc
                  · exact Or.inl (Or.inl ⟨r, hr, Or.inl hc⟩)
                  · have ho : o = .errored e := Option.some.inj hc
                    subst ho
                    by_cases hab : r.consumerAborted
                    · rw [if_pos hab] at hsettle
                      cases Option.some.inj hsettle
                    · rw [if_neg hab] at hsettle
                      exact Or.inl (Or.inl ⟨r, hr, Or.inl hsettle⟩)
                  · exact Or.inl (Or.inl ⟨r, hr, Or.inr (Or.inr hc)⟩)
                · exact Or.inl (Or.inr hw)
      | producerSettleEv =>
          by_cases hs1 : r.producerResult.isSome = true
          · have hst : stepEv s .producerSettleEv = s := by
              simp [stepEv, producerSettleStep, hr, hs1]
            rw [hst] at h
            exact Or.inl h
          · rw [Bool.not_eq_true] at hs1
            by_cases hab : r.producerAborted
            · have hst : stepEv s .producerSettleEv =
                  { s with running := some { r with producerResult := some .ok } } := by
                simp [stepEv, producerSettleStep, hr, hs1, hab]
              rw [hst] at h
              rcases h with ⟨r2, h2, hc⟩ | hw
              · obtain rfl : { r with producerResult := some .ok } = r2 :=
                  Option.some.inj h2
                rcases hc with hc | hc | hc
                · exact Or.inl (Or.inl ⟨r, hr, Or.inl hc⟩)
                · exact Or.inl (Or.inl ⟨r, hr, Or.inr (Or.inl hc)⟩)
                · cases hc
              · exact Or.inl (Or.inr hw)
            · by_cases hnat : (s.innerClosed && r.outQueue.isEmpty) = true
              · have hst : stepEv s .producerSettleEv =
                    { s with running := some { r with producerResult := some .ok } } := by
                  simp [stepEv, producerSettleStep, hr, hs1, hab, hnat]
                rw [hst] at h
                rcases h with ⟨r2, h2, hc⟩ | hw
                · obtain rfl : { r with producerResult := some .ok } = r2 :=
                    Option.some.inj h2
                  rcases hc with hc | hc | hc
                  · exact Or.inl (Or.inl ⟨r, hr, Or.inl hc⟩)
                  · exact Or.inl (Or.inl ⟨r, hr, Or.inr (Or.inl hc)⟩)
                  · cases hc
                · exact Or.inl (Or.inr hw)
              · have hst : stepEv s .producerSettleEv = s := by
                  simp only [stepEv, producerSettleStep, hr, hs1, hab]
                  simp [hnat]
                rw [hst] at h
                exact Or.inl h
      | waiterSettleEv =>
          cases hcr : r.consumerResult with
          | some oc =>
              cases oc with
              | errored ec =>
                  have hst : stepEv s .waiterSettleEv =
                      { s with running := none, waiterResult := some (.errored ec) } := by
                    simp [stepEv, waiterSettleStep, hr, hcr]
                  rw [hst] at h
                  rcases h with ⟨r2, h2, -⟩ | hw
                  · cases h2
                  · have he : ec = e := by
                      have := Option.some.inj hw
                      cases this
                      rfl
                    subst he
                    exact Or.inl (Or.inl ⟨r, hr, Or.inr (Or.inl hcr)⟩)
              | ok =>
                  cases hpr : r.producerResult with
                  | some op =>
                      cases op with
                      | errored ep =>
                          have hst : stepEv s .waiterSettleEv =
                              { s with running := none,
                                       waiterResult := some (.errored ep) } := by
                            simp [stepEv, waiterSettleStep, hr, hcr, hpr]
                          rw [hst] at h
                          rcases h with ⟨r2, h2, -⟩ | hw
                          · cases h2
                          · have he : ep = e := by
                              have := Option.some.inj hw
                              cases this
                              rfl
                            subst he
                            exact Or.inl (Or.inl ⟨r, hr, Or.inr (Or.inr hpr)⟩)
                      | ok =>
                          have hst : stepEv s .waiterSettleEv =
                              { s with running := none, waiterResult := some .ok } := by
                            simp [stepEv, waiterSettleStep, hr, hcr, hpr]
                          rw [hst] at h
                          rcases h with ⟨r2, h2, -⟩ | hw
                          · cases h2
                          · cases Option.some.inj hw
                  | none =>
                      have hst : stepEv s .waiterSettleEv = s := by
                        simp [stepEv, waiterSettleStep, hr, hcr, hpr]
                      rw [hst] at h
                      exact Or.inl h
          | none =>
              cases hpr : r.producerResult with
              | some op =>
                  cases op with
                  | errored ep =>
                      have hst : stepEv s .waiterSettleEv =
                          { s with running := none,
                                   waiterResult := some (.errored ep) } := by
                        simp [stepEv, waiterSettleStep, hr, hcr, hpr]
                      rw [hst] at h
                      rcases h with ⟨r2, h2, -⟩ | hw
                      · cases h2
                      · have he : ep = e := by
                          have := Option.some.inj hw
                          cases this
                          rfl
                        subst he
                        exact Or.inl (Or.inl ⟨r, hr, Or.inr (Or.inr hpr)⟩)
                  | ok =>
                      have hst : stepEv s .waiterSettleEv = s := by
                        simp [stepEv, waiterSettleStep, hr, hcr, hpr]
                      rw [hst] at h
                      exact Or.inl h
              | none =>
                  have hst : stepEv s .waiterSettleEv = s := by
                    simp [stepEv, waiterSettleStep, hr, hcr, hpr]
                  rw [hst] at h
                  exact Or.inl h

theorem mentionsErr_run (l : List Ev) :
    ∀ (s : SessionState) (e : ErrKind), mentionsErr (runEvents s l) e →
      mentionsErr s e ∨ (.inboundErrorEv e) ∈ l ∨ (.writeOutFailEv e) ∈ l := by
  induction l with
  | nil => exact fun s e h => Or.inl h
  | cons ev l ih =>
      intro s e h
      have hfold : runEvents s (ev :: l) = runEvents (stepEv s ev) l := rfl
      rw [hfold] at h
      rcases ih (stepEv s ev) e h with h2 | h2 | h2
      · rcases mentionsErr_step s ev e h2 with h3 | h3 | h3
        · exact Or.inl h3
        · refine Or.inr (Or.inl ?_)
          rw [← h3]
          exact List.mem_cons_self ev l
        · refine Or.inr (Or.inr ?_)
          rw [← h3]
          exact List.mem_cons_self ev l
      · exact Or.inr (Or.inl (List.mem_cons_of_mem ev h2))
      · exact Or.inr (Or.inr (List.mem_cons_of_mem ev h2))

theorem mentionsErr_new (e : ErrKind) : ¬ mentionsErr Session.new e := by
  rintro (⟨r, hr, -⟩ | hw)
  · cases hr
  · cases hw

/-- Events that are not genuine pipeline failures (the shutdown calls and
all ordinary traffic are allowed; only an inbound decode/read error or a
sink write failure is excluded). -/
def evNoFailure : Ev → Bool
  | .inboundErrorEv _ => false
  | .writeOutFailEv _ => false
  | _ => true

/-- Events that are not inbound failures. -/
def evNoInboundFailure : Ev → Bool
  | .inboundErrorEv _ => false
  | _ => true

/-- A run whose inbound side fails with a decode error. -/
def decodeFailTrace : List Ev :=
  [.startEv, .inboundErrorEv .decodeErr, .consumerSettleEv, .waiterSettleEv]

/-- A run whose outbound sink fails while the inbound side never
terminates at all. -/
def sinkFailTrace : List Ev :=
  [.startEv, .sendEv .unull, .writeOutFailEv .writeErr, .waiterSettleEv]

/--
C5, counterexample.  A failure of the caller-supplied outbound sink also
rejects the waiter: after `start`, one `send` and a failing sink write,
the waiter settles with that write error although the inbound pipeline
never terminated (no decode failure, no inbound I/O failure, no settled
consumer — the trace contains no inbound failure event at all).  So
`wait()` rejecting does not imply an inbound termination failure.
-/
theorem wait_rejects_without_inbound_failure :
    (runEvents Session.new sinkFailTrace).waiterResult = some (.errored .writeErr) ∧
    inboundEndOf (runEvents Session.new
      [.startEv, .sendEv .unull, .writeOutFailEv .writeErr]) = none ∧
    consumerResultOf (runEvents Session.new
      [.startEv, .sendEv .unull, .writeOutFailEv .writeErr]) = none ∧
    sinkFailTrace.all evNoInboundFailure = true :=
  ⟨rfl, rfl, rfl, rfl⟩

/--
C5, amended.  The waiter rejects exactly on genuine pipeline failures:
whenever it settles with an error, that error was injected as an inbound
decode/read failure or as an outbound sink write failure; along any run
with no such failure — in particular one torn down by the session's own
`shutdown`/`forceShutdown`, whose sentinel is swallowed — the waiter can
only fulfill; and an inbound decode failure does reject it.
-/
theorem wait_rejection_causes (l : List Ev) (e : ErrKind) (o : Outcome) :
    ((runEvents Session.new l).waiterResult = some (.errored e) →
      (.inboundErrorEv e) ∈ l ∨ (.writeOutFailEv e) ∈ l) ∧
    (l.all evNoFailure = true →
      (runEvents Session.new l).waiterResult = some o → o = .ok) ∧
    (runEvents Session.new decodeFailTrace).waiterResult = some (.errored .decodeErr) := by
  have key : ∀ e2 : ErrKind, (runEvents Session.new l).waiterResult = some (.errored e2) →
      (.inboundErrorEv e2) ∈ l ∨ (.writeOutFailEv e2) ∈ l := by
    intro e2 h
    have hm : mentionsErr (runEvents Session.new l) e2 := Or.inr h
    rcases mentionsErr_run l Session.new e2 hm with h2 | h2 | h2
    · exact absurd h2 (mentionsErr_new e2)
    · exact Or.inl h2
    · exact Or.inr h2
  refine ⟨key e, ?_, rfl⟩
  intro hall h
  cases o with
  | ok => rfl
  | errored e2 =>
      rcases key e2 h with h2 | h2
      · have := List.all_eq_true.1 hall _ h2
        exact Bool.noConfusion this
      · have := List.all_eq_true.1 hall _ h2
        exact Bool.noConfusion this

/-- C5, witness: the rejection cause extracted from the decode-failure
run, and the no-failure half along the graceful run. -/
theorem wait_rejection_causes_witness :
    ((.inboundErrorEv .decodeErr) ∈ decodeFailTrace ∨
      (.writeOutFailEv .decodeErr) ∈ decodeFailTrace) ∧
    Outcome.ok = Outcome.ok :=
  ⟨(wait_rejection_causes decodeFailTrace .decodeErr .ok).1 rfl,
    (wait_rejection_causes fullRunTrace .decodeErr .ok).2.1 rfl rfl⟩

/-! ### C2 — classification of decoded inbound values -/

/--
C2.  On a running session (inbound side live), each decoded top-level
value is classified by `Session.#handleMessage`: a well-formed Message
with a negative id leads to a resolution attempt on the reservator for
exactly that id; a well-formed Message with a non-negative id is handed to
the `onMessage` hook; anything that is not a well-formed Message is handed
to the `onInvalidMessage` hook — recorded, not dropped silently.
-/
theorem inbound_dispatch (s : SessionState) (r : RunState) (v : UVal)
    (h : s.running = some r) (hca : r.consumerAborted = false)
    (hcr : r.consumerResult = none) (hie : r.inboundEnd = none) :
    (isMessage v = true → msgidOf v < 0 →
      (deliverStep s v).resolveAttempts = s.resolveAttempts ++ [(msgidOf v, v)]) ∧
    (isMessage v = true → 0 ≤ msgidOf v →
      (deliverStep s v).onMessageLog = s.onMessageLog ++ [v]) ∧
    (isMessage v = false →
      (deliverStep s v).onInvalidLog = s.onInvalidLog ++ [v]) := by
  have hguard : (r.consumerAborted || r.consumerResult.isSome || r.inboundEnd.isSome) = false := by
    simp [hca, hcr, hie]
  refine ⟨?_, ?_, ?_⟩
  · intro hm hneg
    have hhm : handleMessage v = .resolveTo (msgidOf v) v := by
      simp [handleMessage, hm, hneg]
    simp only [deliverStep, h, hguard, Bool.false_eq_true, if_false, hhm]
    split <;> rfl
  · intro hm hpos
    have hhm : handleMessage v = .notifyMessage v := by
      have hnneg : ¬ msgidOf v < 0 := not_lt.2 hpos
      simp [handleMessage, hm, hnneg]
    simp [deliverStep, h, hguard, hhm]
  · intro hm
    have hhm : handleMessage v = .notifyInvalid v := by
      simp [handleMessage, hm]
    simp [deliverStep, h, hguard, hhm]

/-- C2, witness: a running session right after `start`, dispatching a
response message `[-1, "x"]`, an unsolicited message `[1, "x"]` and an
invalid value `null`. -/
theorem inbound_dispatch_witness :
    ((deliverStep (Session.start Session.new).1 (.uarr [.unum (-1), .ustr ['x']])).resolveAttempts
        = [] ++ [((-1 : Rat), .uarr [.unum (-1), .ustr ['x']])]) ∧
    ((deliverStep (Session.start Session.new).1 (.uarr [.unum 1, .ustr ['x']])).onMessageLog
        = [] ++ [.uarr [.unum 1, .ustr ['x']]]) ∧
    ((deliverStep (Session.start Session.new).1 .unull).onInvalidLog = [] ++ [.unull]) :=
  ⟨(inbound_dispatch (Session.start Session.new).1 freshRun
      (.uarr [.unum (-1), .ustr ['x']]) rfl rfl rfl rfl).1 (by decide) (by decide),
    (inbound_dispatch (Session.start Session.new).1 freshRun
      (.uarr [.unum 1, .ustr ['x']]) rfl rfl rfl rfl).2.1 (by decide) (by decide),
    (inbound_dispatch (Session.start Session.new).1 freshRun
      .unull rfl rfl rfl rfl).2.2 (by decide)⟩

/-! ### C10 — non-negative reservations are never fulfilled by inbound data -/

/--
C10.  Processing one decoded inbound value fulfills a reservation only for
a negative id (`#handleMessage` resolves the reservator only when
`msgid < 0`), so for every `n ≥ 0` a pending `recv(n)` reservation
survives the step untouched: it can never be fulfilled by a received
message, only settled by rejection.
-/
theorem recv_nonnegative_never_fulfilled (s : SessionState) (v : UVal) (n : Rat)
    (hn : 0 ≤ n) :
    ((deliverStep s v).fulfilled = s.fulfilled ∨
      ∃ q msg, q < 0 ∧ (deliverStep s v).fulfilled = s.fulfilled ++ [(q, msg)]) ∧
    (n ∈ pendingOf s → n ∈ pendingOf (deliverStep s v)) := by
  cases h : s.running with
  | none =>
      refine ⟨Or.inl ?_, fun hm => ?_⟩
      · simp [deliverStep, h]
      · simpa [deliverStep, h] using hm
  | some r =>
      by_cases hg : (r.consumerAborted || r.consumerResult.isSome || r.inboundEnd.isSome) = true
      · refine ⟨Or.inl ?_, fun hm => ?_⟩
        · simp [deliverStep, h, hg]
        · simpa [deliverStep, h, hg] using hm
      · rw [Bool.not_eq_true] at hg
        cases hhm : handleMessage v with
        | resolveTo q msg =>
            obtain ⟨hq, -⟩ := handleMessage_resolveTo v q msg hhm
            by_cases hmem : q ∈ r.pendingRecv
            · refine ⟨Or.inr ⟨q, msg, hq, ?_⟩, fun hm => ?_⟩
              · simp [deliverStep, h, hg, hhm, hmem]
              · have hm2 : n ∈ r.pendingRecv := by simpa [pendingOf, h] using hm
                have hne : n ≠ q := by
                  intro heq
                  rw [heq] at hn
                  exact absurd hq (not_lt.2 hn)
                have hgoal : n ∈ r.pendingRecv.erase q :=
                  (List.mem_erase_of_ne hne).2 hm2
                simpa [pendingOf, deliverStep, h, hg, hhm, hmem] using hgoal
            · refine ⟨Or.inl ?_, fun hm => ?_⟩
              · simp [deliverStep, h, hg, hhm, hmem]
              · simpa [pendingOf, deliverStep, h, hg, hhm, hmem] using hm
        | notifyMessage m =>
            refine ⟨Or.inl ?_, fun hm => ?_⟩
            · simp [deliverStep, h, hg, hhm]
            · simpa [pendingOf, deliverStep, h, hg, hhm] using hm
        | notifyInvalid d =>
            refine ⟨Or.inl ?_, fun hm => ?_⟩
            · simp [deliverStep, h, hg, hhm]
            · simpa [pendingOf, deliverStep, h, hg, hhm] using hm

/-- C10, witness: a running session with a pending `recv(0)` reservation
processing the response message `[-1, "x"]`. -/
theorem recv_nonnegative_never_fulfilled_witness :
    (((deliverStep (Session.recv (Session.start Session.new).1 0).1
        (.uarr [.unum (-1), .ustr ['x']])).fulfilled
          = (Session.recv (Session.start Session.new).1 0).1.fulfilled ∨
      ∃ q msg, q < 0 ∧
        (deliverStep (Session.recv (Session.start Session.new).1 0).1
          (.uarr [.unum (-1), .ustr ['x']])).fulfilled
            = (Session.recv (Session.start Session.new).1 0).1.fulfilled ++ [(q, msg)])) ∧
    ((0 : Rat) ∈ pendingOf (Session.recv (Session.start Session.new).1 0).1 →
      (0 : Rat) ∈ pendingOf (deliverStep (Session.recv (Session.start Session.new).1 0).1
        (.uarr [.unum (-1), .ustr ['x']]))) :=
  recv_nonnegative_never_fulfilled (Session.recv (Session.start Session.new).1 0).1
    (.uarr [.unum (-1), .ustr ['x']]) 0 le_rfl

/-!
Streaming JSON codec (src/json_streams.ts).  `EncodeStream` maps each value
to `JSON.stringify`'s output with no separator appended; `DecodeStream`
wraps the external streaming parser `@streamparser/json` (constructed with
an empty separator and without ever signalling end-of-input — the
transform stream has no flush handler), which consumes byte chunks of
arbitrary boundaries and emits each *complete* top-level JSON value as
soon as its final byte has been consumed.

The embedding works at the granularity of Unicode scalar values (one
`Char` per code point; the UTF-8 byte framing of `TextEncoder`, which the
parser reassembles transparently, is abstracted away) and restricts JSON
numbers to arbitrary-precision integers — the decimal formatting of
non-integer JavaScript doubles is floating-point behaviour outside the
embedding, and every behaviour the claims exercise (token boundaries,
chunk re-splitting, emission timing) is number-format independent.

The parser is modelled as a character-level incremental recogniser of the
JSON grammar: a buffer accumulates unconsumed characters, and after each
chunk every value whose completion is already certain is emitted
(`emitAll`).  Completion of strings, arrays, objects and keywords is
self-delimiting; a number token is complete only once a character that
cannot extend it arrives — exactly the behaviour the repository's own
test pins down (`json_streams_test.ts` feeds `"1"`, `"00"` and then
`"{"…` and expects `100` to be emitted when the `{` arrives).
-/

/-- JSON whitespace accepted between tokens. -/
def isWsChar (c : Char) : Bool :=
  c = ' ' || c = '\t' || c = '\n' || c = '\r'

/-- ASCII digit (enumerated for easy case analysis; equals the range
check `'0' ≤ c && c ≤ '9'`). -/
def isDigitChar (c : Char) : Bool :=
  c = '0' || c = '1' || c = '2' || c = '3' || c = '4' ||
    c = '5' || c = '6' || c = '7' || c = '8' || c = '9'

/-- Characters that can extend an open number token in the streaming
tokenizer; until a character outside this set arrives, a number is still
growing and cannot be emitted. -/
def numChar (c : Char) : Bool :=
  isDigitChar c || c = '-' || c = '+' || c = '.' || c = 'e' || c = 'E'

/-- The decimal digit characters. -/
def digitChar : Nat → Char
  | 0 => '0'
  | 1 => '1'
  | 2 => '2'
  | 3 => '3'
  | 4 => '4'
  | 5 => '5'
  | 6 => '6'
  | 7 => '7'
  | 8 => '8'
  | _ => '9'

/-- Lower-case hexadecimal digit characters (as `JSON.stringify` emits in
`\u00..` escapes). -/
def hexDigitChar : Nat → Char
  | 0 => '0'
  | 1 => '1'
  | 2 => '2'
  | 3 => '3'
  | 4 => '4'
  | 5 => '5'
  | 6 => '6'
  | 7 => '7'
  | 8 => '8'
  | 9 => '9'
  | 10 => 'a'
  | 11 => 'b'
  | 12 => 'c'
  | 13 => 'd'
  | 14 => 'e'
  | _ => 'f'

/-- Value of a hexadecimal digit character. -/
def hexVal (c : Char) : Option Nat :=
  if '0' ≤ c ∧ c ≤ '9' then some (c.toNat - 48)
  else if 'a' ≤ c ∧ c ≤ 'f' then some (c.toNat - 87)
  else if 'A' ≤ c ∧ c ≤ 'F' then some (c.toNat - 55)
  else none

/-- Read a digit string most-significant first. -/
def charsToNat (l : List Char) : Nat :=
  l.foldl (fun a c => a * 10 + (c.toNat - 48)) 0

/-- Decimal digits of `n`, most-significant first; the fuel (any bound
`≥ n`) only serves termination. -/
def natToCharsAux : Nat → Nat → List Char
  | 0, _ => []
  | fuel + 1, n =>
    if n = 0 then [] else natToCharsAux fuel (n / 10) ++ [digitChar (n % 10)]

/-- Decimal representation of a natural number. -/
def natToChars (n : Nat) : List Char :=
  if n = 0 then ['0'] else natToCharsAux n n

/-- `JSON.stringify` of an integer. -/
def intToChars (n : Int) : List Char :=
  if n < 0 then '-' :: natToChars n.natAbs else natToChars n.toNat

/-- Read an optionally-signed digit string. -/
def readIntChars : List Char → Option Int
  | [] => none
  | c :: cs =>
      if c = '-' then
        if cs.all isDigitChar && !cs.isEmpty then some (-(charsToNat cs : Int)) else none
      else if (c :: cs).all isDigitChar then some ((charsToNat (c :: cs) : Int)) else none

/-- A JSON value: the JavaScript values `EncodeStream` accepts, with
numbers restricted to integers (see the section comment). -/
inductive JValue where
  | jnull
  | jbool (b : Bool)
  | jnum (n : Int)
  | jstr (s : List Char)
  | jarr (elems : List JValue)
  | jobj (fields : List (List Char × JValue))

/-- Whether a value is a number (top-level numbers are the values whose
serialisation a following value can merge with). -/
def JValue.isNum : JValue → Bool
  | .jnum _ => true
  | _ => false

/-- The string escaping performed by `JSON.stringify`: quote, backslash
and the named control escapes, `\u00xy` for the remaining control
characters, everything else verbatim. -/
def escapeChar (c : Char) : List Char :=
  if c = '"' then ['\\', '"']
  else if c = '\\' then ['\\', '\\']
  else if c = '\x08' then ['\\', 'b']
  else if c = '\x0c' then ['\\', 'f']
  else if c = '\n' then ['\\', 'n']
  else if c = '\r' then ['\\', 'r']
  else if c = '\t' then ['\\', 't']
  else if c.toNat < 32 then
    ['\\', 'u', '0', '0', hexDigitChar (c.toNat / 16), hexDigitChar (c.toNat % 16)]
  else [c]

/-- Escape a whole string body. -/
def escapeString : List Char → List Char
  | [] => []
  | c :: cs => escapeChar c ++ escapeString cs

mutual

/-- Model of `JSON.stringify` restricted to the values of `JValue` — the
bytes `EncodeStream` produces for one value (no separator, no trailing
newline). -/
def serialize : JValue → List Char
  | .jnull => ['n', 'u', 'l', 'l']
  | .jbool true => ['t', 'r', 'u', 'e']
  | .jbool false => ['f', 'a', 'l', 's', 'e']
  | .jnum n => intToChars n
  | .jstr s => '"' :: escapeString s ++ ['"']
  | .jarr vs => '[' :: serializeElems vs ++ [']']
  | .jobj fs => '{' :: serializeFields fs ++ ['}']

/-- Comma-separated serialisation of array elements. -/
def serializeElems : List JValue → List Char
  | [] => []
  | [v] => serialize v
  | v :: v2 :: vs => serialize v ++ ',' :: serializeElems (v2 :: vs)

/-- Comma-separated serialisation of object members. -/
def serializeFields : List (List Char × JValue) → List Char
  | [] => []
  | [(k, v)] => '"' :: escapeString k ++ '"' :: ':' :: serialize v
  | (k, v) :: f2 :: fs =>
      '"' :: escapeString k ++ '"' :: ':' :: serialize v ++ ',' :: serializeFields (f2 :: fs)

end

/-- Drop leading JSON whitespace. -/
def skipWs : List Char → List Char
  | [] => []
  | c :: cs => if isWsChar c then skipWs cs else c :: cs

/-- Consume an expected literal tail (the `ull` of `null`, …). -/
def matchLit : List Char → List Char → Option (List Char)
  | [], rest => some rest
  | _ :: _, [] => none
  | l :: ls, c :: cs => if c = l then matchLit ls cs else none

/-- Parse the body of a string after its opening quote, undoing the JSON
escapes; returns the decoded content and the input after the closing
quote, or `none` when the string is still incomplete (or malformed). -/
def parseStrTail : List Char → Option (List Char × List Char)
  | [] => none
  | c :: cs =>
    if c = '"' then some ([], cs)
    else if c = '\\' then
      match cs with
      | [] => none
      | e :: cs2 =>
        if e = '"' then (parseStrTail cs2).map (fun p => ('"' :: p.1, p.2))
        else if e = '\\' then (parseStrTail cs2).map (fun p => ('\\' :: p.1, p.2))
        else if e = '/' then (parseStrTail cs2).map (fun p => ('/' :: p.1, p.2))
        else if e = 'b' then (parseStrTail cs2).map (fun p => ('\x08' :: p.1, p.2))
        else if e = 'f' then (parseStrTail cs2).map (fun p => ('\x0c' :: p.1, p.2))
        else if e = 'n' then (parseStrTail cs2).map (fun p => ('\n' :: p.1, p.2))
        else if e = 'r' then (parseStrTail cs2).map (fun p => ('\r' :: p.1, p.2))
        else if e = 't' then (parseStrTail cs2).map (fun p => ('\t' :: p.1, p.2))
        else if e = 'u' then
          match cs2 with
          | h1 :: h2 :: h3 :: h4 :: cs3 =>
            match hexVal h1, hexVal h2, hexVal h3, hexVal h4 with
            | some v1, some v2, some v3, some v4 =>
              (parseStrTail cs3).map
                (fun p => (Char.ofNat (((v1 * 16 + v2) * 16 + v3) * 16 + v4) :: p.1, p.2))
            | _, _, _, _ => none
          | _ => none
        else none
    else (parseStrTail cs).map (fun p => (c :: p.1, p.2))

/-- Parse an open number token: it is complete (and emitted) only when a
character that cannot extend it is already present in the buffer; with
the buffer exhausted the token may still grow, so nothing is emitted. -/
def parseNum (input : List Char) : Option (JValue × List Char) :=
  match input.dropWhile numChar with
  | [] => none
  | c :: cs =>
    match readIntChars (input.takeWhile numChar) with
    | some n => some (.jnum n, c :: cs)
    | none => none

mutual

/-- Parse one complete top-level JSON value from the front of the buffer
(`none`: incomplete or malformed).  The fuel only serves termination; any
bound above the input length is enough. -/
def parseValF : Nat → List Char → Option (JValue × List Char)
  | 0, _ => none
  | fuel + 1, input =>
    match skipWs input with
    | [] => none
    | c :: cs =>
      if c = 'n' then (matchLit ['u', 'l', 'l'] cs).map (fun r => (.jnull, r))
      else if c = 't' then (matchLit ['r', 'u', 'e'] cs).map (fun r => (.jbool true, r))
      else if c = 'f' then (matchLit ['a', 'l', 's', 'e'] cs).map (fun r => (.jbool false, r))
      else if c = '"' then (parseStrTail cs).map (fun p => (.jstr p.1, p.2))
      else if c = '[' then parseElemsF fuel (skipWs cs)
      else if c = '{' then parseFieldsF fuel (skipWs cs)
      else if numChar c then parseNum (c :: cs)
      else none

/-- Inside `[...]`, positioned at the first element or at `]`. -/
def parseElemsF : Nat → List Char → Option (JValue × List Char)
  | 0, _ => none
  | fuel + 1, input =>
    match input with
    | ']' :: rest => some (.jarr [], rest)
    | _ =>
      match parseValF fuel input with
      | none => none
      | some (v, r) =>
        match parseElemsSepF fuel (skipWs r) with
        | none => none
        | some (vs, r2) => some (.jarr (v :: vs), r2)

/-- Inside `[...]`, positioned after an element: `,` or `]`. -/
def parseElemsSepF : Nat → List Char → Option (List JValue × List Char)
  | 0, _ => none
  | fuel + 1, input =>
    match input with
    | ']' :: rest => some ([], rest)
    | ',' :: rest =>
      match parseValF fuel rest with
      | none => none
      | some (v, r) =>
        match parseElemsSepF fuel (skipWs r) with
        | none => none
        | some (vs, r2) => some (v :: vs, r2)
    | _ => none

/-- Inside an object, positioned at the first member or at a closing
brace. -/
def parseFieldsF : Nat → List Char → Option (JValue × List Char)
  | 0, _ => none
  | fuel + 1, input =>
    match input with
    | '\x7d' :: rest => some (.jobj [], rest)
    | '"' :: cs =>
      match parseStrTail cs with
      | none => none
      | some (k, r) =>
        match skipWs r with
        | ':' :: r2 =>
          match parseValF fuel r2 with
          | none => none
          | some (v, r3) =>
            match parseFieldsSepF fuel (skipWs r3) with
            | none => none
            | some (fs, r4) => some (.jobj ((k, v) :: fs), r4)
        | _ => none
    | _ => none

/-- Inside an object, positioned after a member: `,` or a closing
brace. -/
def parseFieldsSepF : Nat → List Char → Option (List (List Char × JValue) × List Char)
  | 0, _ => none
  | fuel + 1, input =>
    match input with
    | '\x7d' :: rest => some ([], rest)
    | ',' :: rest =>
      match skipWs rest with
      | '"' :: cs =>
        match parseStrTail cs with
        | none => none
        | some (k, r) =>
          match skipWs r with
          | ':' :: r2 =>
            match parseValF fuel r2 with
            | none => none
            | some (v, r3) =>
              match parseFieldsSepF fuel (skipWs r3) with
              | none => none
              | some (fs, r4) => some ((k, v) :: fs, r4)
          | _ => none
      | _ => none
    | _ => none

end

/-- Extract one certainly-complete top-level value from the buffer front,
if any. -/
def munch (input : List Char) : Option (JValue × List Char) :=
  parseValF (input.length + 1) input

/-- Emit every certainly-complete value from the buffer front, keeping
the incomplete remainder.  The fuel only serves termination. -/
def emitAllF : Nat → List Char → List JValue × List Char
  | 0, input => ([], input)
  | fuel + 1, input =>
    match munch input with
    | none => ([], input)
    | some (v, r) =>
      match emitAllF fuel r with
      | (vs, r2) => (v :: vs, r2)

/-- Emit every certainly-complete value from the buffer front. -/
def emitAll (input : List Char) : List JValue × List Char :=
  emitAllF (input.length + 1) input

/-- `DecodeStream` receiving one chunk: append it to the parser's pending
buffer and emit every value completed by it. -/
def feedChunk (st : List Char × List JValue) (chunk : List Char) : List Char × List JValue :=
  match emitAll (st.1 ++ chunk) with
  | (vs, buf) => (buf, st.2 ++ vs)

/-- The full value sequence `DecodeStream` emits for a chunk sequence
(the stream closing emits nothing further: the parser is never told the
input ended). -/
def decodeChunks (chunks : List (List Char)) : List JValue :=
  (chunks.foldl feedChunk ([], [])).2

/-- Model of `EncodeStream`: one chunk per value, each the value's
serialisation. -/
def encodeStream (vals : List JValue) : List (List Char) :=
  vals.map serialize

/-- The safety condition under which the codec round-trips (its violation
is exactly what the counterexample exhibits): no number is immediately
followed by another number — their serialisations would fuse into one
token — and the sequence does not end with a number, whose final token
the decoder would never emit (no end-of-input signal ever reaches the
parser). -/
def safeSeq : List JValue → Bool
  | [] => true
  | [v] => ! v.isNum
  | v :: w :: rest => (! v.isNum || ! w.isNum) && safeSeq (w :: rest)

/-! Character and decimal-representation lemmas. -/

theorem isDigitChar_cases (c : Char) (h : isDigitChar c = true) :
    c = '0' ∨ c = '1' ∨ c = '2' ∨ c = '3' ∨ c = '4' ∨
      c = '5' ∨ c = '6' ∨ c = '7' ∨ c = '8' ∨ c = '9' := by
  simp [isDigitChar] at h
  tauto

theorem isDigitChar_digitChar (d : Nat) : isDigitChar (digitChar d) = true := by
  rcases d with _ | _ | _ | _ | _ | _ | _ | _ | _ | d2 <;> rfl

theorem digitChar_toNat (d : Nat) (h : d < 10) : (digitChar d).toNat = 48 + d := by
  interval_cases d <;> decide

theorem charsToNat_append (l : List Char) (c : Char) :
    charsToNat (l ++ [c]) = 10 * charsToNat l + (c.toNat - 48) := by
  simp [charsToNat, List.foldl_append]
  omega

theorem natToCharsAux_fuel (n : Nat) :
    ∀ f1 f2, n ≤ f1 → n ≤ f2 → natToCharsAux f1 n = natToCharsAux f2 n := by
  induction n using Nat.strong_induction_on with
  | _ n ih =>
      intro f1 f2 h1 h2
      rcases f1 with _ | f1
      · have hn : n = 0 := Nat.le_zero.1 h1
        subst hn
        rcases f2 with _ | f2
        · rfl
        · simp [natToCharsAux]
      · rcases f2 with _ | f2
        · have hn : n = 0 := Nat.le_zero.1 h2
          subst hn
          simp [natToCharsAux]
        · by_cases hn : n = 0
          · subst hn
            simp [natToCharsAux]
          · simp only [natToCharsAux, if_neg hn]
            have hd : n / 10 < n := Nat.div_lt_self (Nat.pos_of_ne_zero hn) (by norm_num)
            rw [ih (n / 10) hd f1 f2 (by omega) (by omega)]

theorem natToCharsAux_spec (n : Nat) :
    ∀ f, n ≤ f →
      (natToCharsAux f n).all isDigitChar = true ∧
      charsToNat (natToCharsAux f n) = n ∧
      (0 < n → ∃ c cs, natToCharsAux f n = c :: cs ∧ isDigitChar c = true) := by
  induction n using Nat.strong_induction_on with
  | _ n ih =>
      intro f hf
      by_cases hn : n = 0
      · subst hn
        rcases f with _ | f
        · exact ⟨rfl, rfl, fun h => absurd h (by omega)⟩
        · refine ⟨?_, ?_, fun h => absurd h (by omega)⟩
          · simp [natToCharsAux]
          · simp [natToCharsAux, charsToNat]
      · rcases f with _ | f
        · omega
        · have hd : n / 10 < n := Nat.div_lt_self (Nat.pos_of_ne_zero hn) (by norm_num)
          have hrec := ih (n / 10) hd f (by omega)
          have hunf : natToCharsAux (f + 1) n =
              natToCharsAux f (n / 10) ++ [digitChar (n % 10)] := by
            simp [natToCharsAux, hn]
          refine ⟨?_, ?_, ?_⟩
          · rw [hunf, List.all_append]
            simp [hrec.1, isDigitChar_digitChar]
          · rw [hunf, charsToNat_append, hrec.2.1,
              digitChar_toNat (n % 10) (Nat.mod_lt n (by norm_num))]
            omega
          · intro h0
            rw [hunf]
            by_cases hq : n / 10 = 0
            · rw [hq]
              rcases f with _ | f
              · exact ⟨digitChar (n % 10), [], rfl, isDigitChar_digitChar _⟩
              · exact ⟨digitChar (n % 10), [], by simp [natToCharsAux], isDigitChar_digitChar _⟩
            · obtain ⟨c, cs, hcs, hc⟩ := hrec.2.2 (Nat.pos_of_ne_zero hq)
              exact ⟨c, cs ++ [digitChar (n % 10)], by rw [hcs]; rfl, hc⟩

theorem natToChars_all (n : Nat) : (natToChars n).all isDigitChar = true := by
  by_cases hn : n = 0
  · subst hn
    decide
  · simp only [natToChars, if_neg hn]
    exact (natToCharsAux_spec n n le_rfl).1

theorem charsToNat_natToChars (n : Nat) : charsToNat (natToChars n) = n := by
  by_cases hn : n = 0
  · subst hn
    decide
  · simp only [natToChars, if_neg hn]
    exact (natToCharsAux_spec n n le_rfl).2.1

theorem natToChars_head (n : Nat) :
    ∃ c cs, natToChars n = c :: cs ∧ isDigitChar c = true := by
  by_cases hn : n = 0
  · subst hn
    exact ⟨'0', [], rfl, by decide⟩
  · simp only [natToChars, if_neg hn]
    exact (natToCharsAux_spec n n le_rfl).2.2 (Nat.pos_of_ne_zero hn)

theorem isDigitChar_numChar (c : Char) (h : isDigitChar c = true) : numChar c = true := by
  simp [numChar, h]

theorem intToChars_head (n : Int) :
    ∃ c cs, intToChars n = c :: cs ∧ (isDigitChar c = true ∨ c = '-') := by
  by_cases hn : n < 0
  · exact ⟨'-', natToChars n.natAbs, by simp [intToChars, hn], Or.inr rfl⟩
  · obtain ⟨c, cs, hcs, hc⟩ := natToChars_head n.toNat
    exact ⟨c, cs, by simp [intToChars, hn, hcs], Or.inl hc⟩

theorem intToChars_all_num (n : Int) : (intToChars n).all numChar = true := by
  have hdig : ∀ l : List Char, l.all isDigitChar = true → l.all numChar = true := by
    intro l hl
    rw [List.all_eq_true] at hl ⊢
    exact fun x hx => isDigitChar_numChar x (hl x hx)
  by_cases hn : n < 0
  · simp only [intToChars, if_pos hn, List.all_cons, Bool.and_eq_true]
    exact ⟨by decide, hdig _ (natToChars_all n.natAbs)⟩
  · simp only [intToChars, if_neg hn]
    exact hdig _ (natToChars_all n.toNat)

theorem isDigitChar_ne_dash (c : Char) (h : isDigitChar c = true) : ¬ c = '-' := by
  rcases isDigitChar_cases c h with rfl | rfl | rfl | rfl | rfl | rfl | rfl | rfl | rfl | rfl <;>
    decide

theorem readIntChars_neg (l : List Char) (hall : l.all isDigitChar = true)
    (hne : l ≠ []) : readIntChars ('-' :: l) = some (-(charsToNat l : Int)) := by
  have hie : l.isEmpty = false := by
    cases l with
    | nil => exact absurd rfl hne
    | cons a as => rfl
  simp [readIntChars, hall, hie]

theorem readIntChars_nonneg (c : Char) (cs : List Char) (hc : isDigitChar c = true)
    (hall : (c :: cs).all isDigitChar = true) :
    readIntChars (c :: cs) = some ((charsToNat (c :: cs) : Int)) := by
  have hndash := isDigitChar_ne_dash c hc
  simp [readIntChars, hndash, hall]

theorem readIntChars_intToChars (n : Int) : readIntChars (intToChars n) = some n := by
  by_cases hn : n < 0
  · obtain ⟨c, cs, hcs, hc⟩ := natToChars_head n.natAbs
    have h1 : readIntChars ('-' :: natToChars n.natAbs) =
        some (-(charsToNat (natToChars n.natAbs) : Int)) :=
      readIntChars_neg _ (natToChars_all _) (by rw [hcs]; exact List.cons_ne_nil c cs)
    rw [charsToNat_natToChars] at h1
    simp only [intToChars, if_pos hn, h1]
    congr 1
    omega
  · obtain ⟨c, cs, hcs, hc⟩ := natToChars_head n.toNat
    have hall := natToChars_all n.toNat
    rw [hcs] at hall
    have h1 : readIntChars (c :: cs) = some ((charsToNat (c :: cs) : Int)) :=
      readIntChars_nonneg c cs hc hall
    rw [← hcs, charsToNat_natToChars] at h1
    simp only [intToChars, if_neg hn, h1]
    congr 1
    omega

/-! Whitespace, literal and string-body parsing lemmas. -/

theorem skipWs_cons_not_ws (c : Char) (cs : List Char) (h : isWsChar c = false) :
    skipWs (c :: cs) = c :: cs := by
  simp [skipWs, h]

theorem skipWs_append (a : List Char) :
    ∀ c cs b, skipWs a = c :: cs → skipWs (a ++ b) = c :: (cs ++ b) := by
  induction a with
  | nil => intro c cs b h; cases h
  | cons d ds ih =>
      intro c cs b h
      by_cases hd : isWsChar d = true
      · rw [show skipWs (d :: ds) = skipWs ds from by simp [skipWs, hd]] at h
        rw [show (d :: ds) ++ b = d :: (ds ++ b) from rfl,
          show skipWs (d :: (ds ++ b)) = skipWs (ds ++ b) from by simp [skipWs, hd]]
        exact ih c cs b h
      · rw [Bool.not_eq_true] at hd
        rw [skipWs_cons_not_ws d ds hd] at h
        injection h with h1 h2
        subst h1
        subst h2
        rw [show (d :: ds) ++ b = d :: (ds ++ b) from rfl,
          skipWs_cons_not_ws d (ds ++ b) hd]

theorem skipWs_length (a : List Char) : (skipWs a).length ≤ a.length := by
  induction a with
  | nil => exact le_rfl
  | cons d ds ih =>
      by_cases hd : isWsChar d = true
      · rw [show skipWs (d :: ds) = skipWs ds from by simp [skipWs, hd]]
        exact le_trans ih (by simp)
      · rw [Bool.not_eq_true] at hd
        rw [skipWs_cons_not_ws d ds hd]

theorem matchLit_self (lit : List Char) : ∀ rest, matchLit lit (lit ++ rest) = some rest := by
  induction lit with
  | nil => intro rest; rfl
  | cons l ls ih =>
      intro rest
      rw [show (l :: ls) ++ rest = l :: (ls ++ rest) from rfl]
      simp [matchLit, ih]

theorem matchLit_props (lit : List Char) :
    ∀ a r, matchLit lit a = some r →
      (∀ b, matchLit lit (a ++ b) = some (r ++ b)) ∧ r.length ≤ a.length := by
  induction lit with
  | nil =>
      intro a r h
      cases h
      exact ⟨fun b => rfl, le_rfl⟩
  | cons l ls ih =>
      intro a r h
      cases a with
      | nil => cases h
      | cons c cs =>
          by_cases hc : c = l
          · rw [show matchLit (l :: ls) (c :: cs) =
                matchLit ls cs from by simp [matchLit, hc]] at h
            obtain ⟨hb, hl⟩ := ih cs r h
            constructor
            · intro b
              rw [show (c :: cs) ++ b = c :: (cs ++ b) from rfl]
              rw [show matchLit (l :: ls) (c :: (cs ++ b)) =
                matchLit ls (cs ++ b) from by simp [matchLit, hc]]
              exact hb b
            · exact le_trans hl (by simp)
          · rw [show matchLit (l :: ls) (c :: cs) = none from by simp [matchLit, hc]] at h
            cases h

theorem hexVal_hexDigitChar : ∀ d, d < 16 → hexVal (hexDigitChar d) = some d := by
  decide

theorem parseStrTail_quote (cs : List Char) : parseStrTail ('"' :: cs) = some ([], cs) := by
  rw [parseStrTail.eq_def]
  simp

/-- Unfolding equation of `parseStrTail` for a non-quote, non-backslash
head character. -/
theorem parseStrTail_lit (c : Char) (cs : List Char) (hq : ¬ c = '"')
    (hb : ¬ c = '\\') :
    parseStrTail (c :: cs) = (parseStrTail cs).map (fun p => (c :: p.1, p.2)) := by
  rw [parseStrTail.eq_def]
  simp only []
  rw [if_neg hq, if_neg hb]

theorem parseStrTail_unicode (h1 h2 h3 h4 : Char) (z : List Char) :
    parseStrTail ('\\' :: 'u' :: h1 :: h2 :: h3 :: h4 :: z) =
      (match hexVal h1, hexVal h2, hexVal h3, hexVal h4 with
        | some v1, some v2, some v3, some v4 =>
          (parseStrTail z).map (fun p =>
            (Char.ofNat (((v1 * 16 + v2) * 16 + v3) * 16 + v4) :: p.1, p.2))
        | _, _, _, _ => none) := by
  rw [parseStrTail.eq_def]
  simp

theorem parseStrTail_props_aux (n : Nat) :
    ∀ (a : List Char), a.length ≤ n →
      ∀ s r, parseStrTail a = some (s, r) →
        (∀ b, parseStrTail (a ++ b) = some (s, r ++ b)) ∧ r.length < a.length := by
  induction n with
  | zero =>
      intro a ha s r h
      cases a with
      | nil => cases h
      | cons c cs => simp at ha
  | succ n ihn =>
      intro a ha s r h
      cases a with
      | nil => cases h
      | cons c cs =>
          simp only [List.length_cons, Nat.add_le_add_iff_right] at ha
          have hstep : ∀ (d : Char) (tail : List Char),
              (parseStrTail tail).map (fun p => (d :: p.1, p.2)) = some (s, r) →
              tail.length ≤ n →
              (∀ b, (parseStrTail (tail ++ b)).map (fun p => (d :: p.1, p.2)) =
                some (s, r ++ b)) ∧ r.length < tail.length := by
            intro d tail hmap hlen
            rw [Option.map_eq_some'] at hmap
            obtain ⟨p, hp, hpe⟩ := hmap
            obtain ⟨p1, p2⟩ := p
            simp only [Prod.mk.injEq] at hpe
            obtain ⟨hs, hr⟩ := hpe
            obtain ⟨hstab, hlt⟩ := ihn tail hlen p1 p2 hp
            refine ⟨?_, hr ▸ hlt⟩
            intro b
            rw [hstab b]
            simp [hs, hr]
          by_cases hq : c = '"'
          · subst hq
            rw [parseStrTail_quote] at h
            simp only [Option.some.injEq, Prod.mk.injEq] at h
            obtain ⟨h1, h2⟩ := h
            subst h1
            subst h2
            refine ⟨?_, by simp⟩
            intro b
            rw [show ('"' :: cs) ++ b = '"' :: (cs ++ b) from rfl, parseStrTail_quote]
          · by_cases hbs : c = '\\'
            · subst hbs
              cases cs with
              | nil =>
                  rw [show parseStrTail ['\\'] = none from by
                    rw [parseStrTail.eq_def]; simp] at h
                  cases h
              | cons e cs2 =>
                  simp only [List.length_cons] at ha
                  have hlen2 : cs2.length ≤ n := by omega
                  have hesc : ∀ (k cod : Char), e = k →
                      (∀ z, parseStrTail ('\\' :: k :: z) =
                        (parseStrTail z).map (fun p => (cod :: p.1, p.2))) →
                      (∀ b, parseStrTail (('\\' :: e :: cs2) ++ b) = some (s, r ++ b)) ∧
                        r.length < ('\\' :: e :: cs2).length := by
                    intro k cod hek hunf
                    subst hek
                    rw [hunf cs2] at h
                    obtain ⟨hb, hl⟩ := hstep cod cs2 h hlen2
                    refine ⟨?_, ?_⟩
                    · intro b
                      rw [show ('\\' :: e :: cs2) ++ b = '\\' :: e :: (cs2 ++ b) from rfl,
                        hunf (cs2 ++ b)]
                      exact hb b
                    · simp only [List.length_cons]
                      omega
                  by_cases he1 : e = '"'
                  · exact hesc '"' '"' he1 (fun z => by rw [parseStrTail.eq_def]; simp)
                  · by_cases he2 : e = '\\'
                    · exact hesc '\\' '\\' he2 (fun z => by rw [parseStrTail.eq_def]; simp)
                    · by_cases he3 : e = '/'
                      · exact hesc '/' '/' he3 (fun z => by rw [parseStrTail.eq_def]; simp)
                      · by_cases he4 : e = 'b'
                        · exact hesc 'b' '\x08' he4 (fun z => by
                            rw [parseStrTail.eq_def]; simp)
                        · by_cases he5 : e = 'f'
                          · exact hesc 'f' '\x0c' he5 (fun z => by
                              rw [parseStrTail.eq_def]; simp)
                          · by_cases he6 : e = 'n'
                            · exact hesc 'n' '\n' he6 (fun z => by
                                rw [parseStrTail.eq_def]; simp)
                            · by_cases he7 : e = 'r'
                              · exact hesc 'r' '\r' he7 (fun z => by
                                  rw [parseStrTail.eq_def]; simp)
                              · by_cases he8 : e = 't'
                                · exact hesc 't' '\t' he8 (fun z => by
                                    rw [parseStrTail.eq_def]; simp)
                                · by_cases he9 : e = 'u'
                                  · subst he9
                                    match cs2, hlen2, h with
                                    | [], _, h =>
                                        rw [show parseStrTail ['\\', 'u'] = none from by
                                          rw [parseStrTail.eq_def]; simp] at h
                                        cases h
                                    | [g1], _, h =>
                                        rw [show parseStrTail ['\\', 'u', g1] = none from by
                                          rw [parseStrTail.eq_def]; simp] at h
                                        cases h
                                    | [g1, g2], _, h =>
                                        rw [show parseStrTail ['\\', 'u', g1, g2] =
                                          none from by rw [parseStrTail.eq_def]; simp] at h
                                        cases h
                                    | [g1, g2, g3], _, h =>
                                        rw [show parseStrTail ['\\', 'u', g1, g2, g3] =
                                          none from by rw [parseStrTail.eq_def]; simp] at h
                                        cases h
                                    | g1 :: g2 :: g3 :: g4 :: cs3, hlen2, h =>
                                        rw [parseStrTail_unicode] at h
                                        cases hv1 : hexVal g1 with
                                        | none => rw [hv1] at h; cases h
                                        | some v1 =>
                                        cases hv2 : hexVal g2 with
                                        | none => rw [hv1, hv2] at h; cases h
                                        | some v2 =>
                                        cases hv3 : hexVal g3 with
                                        | none => rw [hv1, hv2, hv3] at h; cases h
                                        | some v3 =>
                                        cases hv4 : hexVal g4 with
                                        | none => rw [hv1, hv2, hv3, hv4] at h; cases h
                                        | some v4 =>
                                        rw [hv1, hv2, hv3, hv4] at h
                                        simp only [List.length_cons] at hlen2
                                        have hlen3 : cs3.length ≤ n := by omega
                                        obtain ⟨hb, hl⟩ := hstep
                                          (Char.ofNat (((v1 * 16 + v2) * 16 + v3) * 16 + v4))
                                          cs3 h hlen3
                                        refine ⟨?_, ?_⟩
                                        · intro b
                                          rw [show
                                            ('\\' :: 'u' :: g1 :: g2 :: g3 :: g4 :: cs3) ++ b =
                                            '\\' :: 'u' :: g1 :: g2 :: g3 :: g4 :: (cs3 ++ b)
                                            from rfl]
                                          rw [parseStrTail_unicode, hv1, hv2, hv3, hv4]
                                          exact hb b
                                        · simp only [List.length_cons]
                                          omega
                                  · rw [show parseStrTail ('\\' :: e :: cs2) = none from by
                                      rw [parseStrTail.eq_def]
                                      simp [he1, he2, he3, he4, he5, he6, he7, he8, he9]] at h
                                    cases h
            · rw [parseStrTail_lit c cs hq hbs] at h
              obtain ⟨hb, hl⟩ := hstep c cs h ha
              refine ⟨?_, by simp only [List.length_cons]; omega⟩
              intro b
              rw [show (c :: cs) ++ b = c :: (cs ++ b) from rfl,
                parseStrTail_lit c (cs ++ b) hq hbs]
              exact hb b

theorem parseStrTail_props (a : List Char) (s r : List Char)
    (h : parseStrTail a = some (s, r)) :
    (∀ b, parseStrTail (a ++ b) = some (s, r ++ b)) ∧ r.length < a.length :=
  parseStrTail_props_aux a.length a le_rfl s r h

theorem parseStrTail_escape (s : List Char) :
    ∀ rest, parseStrTail (escapeString s ++ '"' :: rest) = some (s, rest) := by
  induction s with
  | nil => intro rest; exact parseStrTail_quote rest
  | cons c cs ih =>
      intro rest
      by_cases h1 : c = '"'
      · subst h1
        rw [show escapeString ('"' :: cs) ++ '"' :: rest =
            '\\' :: '"' :: (escapeString cs ++ '"' :: rest) from by
          simp [escapeString, escapeChar]]
        rw [show ∀ z, parseStrTail ('\\' :: '"' :: z) =
            (parseStrTail z).map (fun p => ('"' :: p.1, p.2)) from fun z => by
          rw [parseStrTail.eq_def]; simp]
        rw [ih rest]
        rfl
      · by_cases h2 : c = '\\'
        · subst h2
          rw [show escapeString ('\\' :: cs) ++ '"' :: rest =
              '\\' :: '\\' :: (escapeString cs ++ '"' :: rest) from by
            simp [escapeString, escapeChar]]
          rw [show ∀ z, parseStrTail ('\\' :: '\\' :: z) =
              (parseStrTail z).map (fun p => ('\\' :: p.1, p.2)) from fun z => by
            rw [parseStrTail.eq_def]; simp]
          rw [ih rest]
          rfl
        · by_cases h3 : c = '\x08'
          · subst h3
            rw [show escapeString ('\x08' :: cs) ++ '"' :: rest =
                '\\' :: 'b' :: (escapeString cs ++ '"' :: rest) from by
              simp [escapeString, escapeChar]]
            rw [show ∀ z, parseStrTail ('\\' :: 'b' :: z) =
                (parseStrTail z).map (fun p => ('\x08' :: p.1, p.2)) from fun z => by
              rw [parseStrTail.eq_def]; simp]
            rw [ih rest]
            rfl
          · by_cases h4 : c = '\x0c'
            · subst h4
              rw [show escapeString ('\x0c' :: cs) ++ '"' :: rest =
                  '\\' :: 'f' :: (escapeString cs ++ '"' :: rest) from by
                simp [escapeString, escapeChar]]
              rw [show ∀ z, parseStrTail ('\\' :: 'f' :: z) =
                  (parseStrTail z).map (fun p => ('\x0c' :: p.1, p.2)) from fun z => by
                rw [parseStrTail.eq_def]; simp]
              rw [ih rest]
              rfl
            · by_cases h5 : c = '\n'
              · subst h5
                rw [show escapeString ('\n' :: cs) ++ '"' :: rest =
                    '\\' :: 'n' :: (escapeString cs ++ '"' :: rest) from by
                  simp [escapeString, escapeChar]]
                rw [show ∀ z, parseStrTail ('\\' :: 'n' :: z) =
                    (parseStrTail z).map (fun p => ('\n' :: p.1, p.2)) from fun z => by
                  rw [parseStrTail.eq_def]; simp]
                rw [ih rest]
                rfl
              · by_cases h6 : c = '\r'
                · subst h6
                  rw [show escapeString ('\r' :: cs) ++ '"' :: rest =
                      '\\' :: 'r' :: (escapeString cs ++ '"' :: rest) from by
                    simp [escapeString, escapeChar]]
                  rw [show ∀ z, parseStrTail ('\\' :: 'r' :: z) =
                      (parseStrTail z).map (fun p => ('\r' :: p.1, p.2)) from fun z => by
                    rw [parseStrTail.eq_def]; simp]
                  rw [ih rest]
                  rfl
                · by_cases h7 : c = '\t'
                  · subst h7
                    rw [show escapeString ('\t' :: cs) ++ '"' :: rest =
                        '\\' :: 't' :: (escapeString cs ++ '"' :: rest) from by
                      simp [escapeString, escapeChar]]
                    rw [show ∀ z, parseStrTail ('\\' :: 't' :: z) =
                        (parseStrTail z).map (fun p => ('\t' :: p.1, p.2)) from fun z => by
                      rw [parseStrTail.eq_def]; simp]
                    rw [ih rest]
                    rfl
                  · by_cases h32 : c.toNat < 32
                    · have hesc : escapeChar c =
                          ['\\', 'u', '0', '0', hexDigitChar (c.toNat / 16),
                            hexDigitChar (c.toNat % 16)] := by
                        simp [escapeChar, h1, h2, h3, h4, h5, h6, h7, h32]
                      rw [show escapeString (c :: cs) ++ '"' :: rest =
                          escapeChar c ++ (escapeString cs ++ '"' :: rest) from by
                        simp [escapeString]]
                      rw [hesc]
                      rw [show ['\\', 'u', '0', '0', hexDigitChar (c.toNat / 16),
                          hexDigitChar (c.toNat % 16)] ++ (escapeString cs ++ '"' :: rest) =
                          '\\' :: 'u' :: '0' :: '0' :: hexDigitChar (c.toNat / 16) ::
                            hexDigitChar (c.toNat % 16) ::
                            (escapeString cs ++ '"' :: rest) from rfl]
                      rw [parseStrTail_unicode]
                      rw [show hexVal '0' = some 0 from rfl]
                      rw [hexVal_hexDigitChar (c.toNat / 16) (by omega)]
                      rw [hexVal_hexDigitChar (c.toNat % 16) (by omega)]
                      simp only []
                      rw [ih rest]
                      rw [show ((0 * 16 + 0) * 16 + c.toNat / 16) * 16 + c.toNat % 16 =
                          c.toNat from by omega]
                      rw [Char.ofNat_toNat]
                      rfl
                    · have hesc : escapeChar c = [c] := by
                        simp [escapeChar, h1, h2, h3, h4, h5, h6, h7, h32]
                      rw [show escapeString (c :: cs) ++ '"' :: rest =
                          escapeChar c ++ (escapeString cs ++ '"' :: rest) from by
                        simp [escapeString]]
                      rw [hesc]
                      rw [show [c] ++ (escapeString cs ++ '"' :: rest) =
                          c :: (escapeString cs ++ '"' :: rest) from rfl]
                      rw [parseStrTail_lit c _ h1 h2]
                      rw [ih rest]
                      rfl

/-- The first character of a serialised value: never whitespace, never a
structural close/separator, and for a non-number value never a character
that could extend a number token. -/
theorem serialize_head (v : JValue) :
    ∃ c cs, serialize v = c :: cs ∧ isWsChar c = false ∧
      ¬ c = ']' ∧ (JValue.isNum v = false → numChar c = false) := by
  cases v with
  | jnull => exact ⟨'n', ['u', 'l', 'l'], by simp [serialize], by decide, by decide,
      fun _ => by decide⟩
  | jbool b =>
      cases b with
      | true => exact ⟨'t', ['r', 'u', 'e'], by simp [serialize], by decide, by decide,
          fun _ => by decide⟩
      | false => exact ⟨'f', ['a', 'l', 's', 'e'], by simp [serialize], by decide, by decide,
          fun _ => by decide⟩
  | jnum n =>
      obtain ⟨c, cs, hcs, hc⟩ := intToChars_head n
      refine ⟨c, cs, by simp [serialize, hcs], ?_, ?_, fun h => by cases h⟩
      · rcases hc with hd | rfl
        · rcases isDigitChar_cases c hd with rfl | rfl | rfl | rfl | rfl | rfl | rfl |
            rfl | rfl | rfl <;> decide
        · decide
      · rcases hc with hd | rfl
        · rcases isDigitChar_cases c hd with rfl | rfl | rfl | rfl | rfl | rfl | rfl |
            rfl | rfl | rfl <;> decide
        · decide
  | jstr s => exact ⟨'"', escapeString s ++ ['"'], by simp [serialize], by decide,
      by decide, fun _ => by decide⟩
  | jarr vs => exact ⟨'[', serializeElems vs ++ [']'], by simp [serialize], by decide,
      by decide, fun _ => by decide⟩
  | jobj fs => exact ⟨'{', serializeFields fs ++ ['}'], by simp [serialize], by decide,
      by decide, fun _ => by decide⟩

/-- Dispatch facts for the head of a serialised number: it reaches the
number branch of `parseValF`. -/
theorem num_head_dispatch (c : Char) (h : isDigitChar c = true ∨ c = '-') :
    ¬ c = 'n' ∧ ¬ c = 't' ∧ ¬ c = 'f' ∧ ¬ c = '"' ∧ ¬ c = '[' ∧ ¬ c = '{' ∧
      numChar c = true ∧ isWsChar c = false := by
  rcases h with hd | rfl
  · rcases isDigitChar_cases c hd with rfl | rfl | rfl | rfl | rfl | rfl | rfl |
      rfl | rfl | rfl <;> exact ⟨by decide, by decide, by decide, by decide, by decide,
        by decide, by decide, by decide⟩
  · exact ⟨by decide, by decide, by decide, by decide, by decide, by decide,
      by decide, by decide⟩

theorem parseValF_nil : ∀ f, parseValF f [] = none := by
  intro f
  cases f with
  | zero => rfl
  | succ f => simp [parseValF, skipWs]

theorem parseElemsF_nil : ∀ f, parseElemsF f [] = none := by
  intro f
  cases f with
  | zero => rfl
  | succ f => simp [parseElemsF, parseValF_nil]

theorem parseElemsSepF_nil : ∀ f, parseElemsSepF f [] = none := by
  intro f
  cases f with
  | zero => rfl
  | succ f => simp [parseElemsSepF]

theorem parseFieldsF_nil : ∀ f, parseFieldsF f [] = none := by
  intro f
  cases f with
  | zero => rfl
  | succ f => simp [parseFieldsF]

theorem parseFieldsSepF_nil : ∀ f, parseFieldsSepF f [] = none := by
  intro f
  cases f with
  | zero => rfl
  | succ f => simp [parseFieldsSepF]

theorem dropWhile_append_stable (p : Char → Bool) (a : List Char) :
    ∀ c cs b, a.dropWhile p = c :: cs →
      (a ++ b).dropWhile p = c :: (cs ++ b) ∧ (a ++ b).takeWhile p = a.takeWhile p := by
  induction a with
  | nil => intro c cs b h; cases h
  | cons d ds ih =>
      intro c cs b h
      by_cases hd : p d = true
      · rw [show (d :: ds).dropWhile p = ds.dropWhile p from by
          simp [List.dropWhile_cons, hd]] at h
        obtain ⟨h1, h2⟩ := ih c cs b h
        refine ⟨?_, ?_⟩
        · rw [show (d :: ds) ++ b = d :: (ds ++ b) from rfl]
          rw [show (d :: (ds ++ b)).dropWhile p = (ds ++ b).dropWhile p from by
            simp [List.dropWhile_cons, hd]]
          exact h1
        · rw [show (d :: ds) ++ b = d :: (ds ++ b) from rfl]
          rw [show (d :: (ds ++ b)).takeWhile p = d :: (ds ++ b).takeWhile p from by
            simp [List.takeWhile_cons, hd]]
          rw [show (d :: ds).takeWhile p = d :: ds.takeWhile p from by
            simp [List.takeWhile_cons, hd]]
          rw [h2]
      · rw [Bool.not_eq_true] at hd
        rw [show (d :: ds).dropWhile p = d :: ds from by
          simp [List.dropWhile_cons, hd]] at h
        injection h with h1 h2
        subst h1
        subst h2
        refine ⟨?_, ?_⟩
        · rw [show (d :: ds) ++ b = d :: (ds ++ b) from rfl]
          simp [List.dropWhile_cons, hd]
        · rw [show (d :: ds) ++ b = d :: (ds ++ b) from rfl]
          simp [List.takeWhile_cons, hd]

theorem takeWhile_all_append (p : Char → Bool) (l : List Char) (hl : l.all p = true) :
    ∀ c cs, p c = false →
      (l ++ c :: cs).takeWhile p = l ∧ (l ++ c :: cs).dropWhile p = c :: cs := by
  induction l with
  | nil =>
      intro c cs hc
      constructor
      · simp [List.takeWhile_cons, hc]
      · simp [List.dropWhile_cons, hc]
  | cons d ds ih =>
      intro c cs hc
      rw [List.all_cons, Bool.and_eq_true] at hl
      obtain ⟨hd, hds⟩ := hl
      obtain ⟨h1, h2⟩ := ih hds c cs hc
      constructor
      · rw [show (d :: ds) ++ c :: cs = d :: (ds ++ c :: cs) from rfl]
        rw [show (d :: (ds ++ c :: cs)).takeWhile p = d :: (ds ++ c :: cs).takeWhile p from by
          simp [List.takeWhile_cons, hd]]
        rw [h1]
      · rw [show (d :: ds) ++ c :: cs = d :: (ds ++ c :: cs) from rfl]
        simp only [List.dropWhile_cons, hd]
        exact h2

theorem parseNum_spec (n : Int) (c : Char) (cs : List Char) (hc : numChar c = false) :
    parseNum (intToChars n ++ c :: cs) = some (.jnum n, c :: cs) := by
  obtain ⟨h1, h2⟩ := takeWhile_all_append numChar (intToChars n) (intToChars_all_num n)
    c cs hc
  simp only [parseNum, h1, h2, readIntChars_intToChars n]

theorem parseNum_append (a : List Char) (v : JValue) (r : List Char)
    (h : parseNum a = some (v, r)) :
    ∀ b, parseNum (a ++ b) = some (v, r ++ b) := by
  intro b
  unfold parseNum at h
  cases hd : a.dropWhile numChar with
  | nil => rw [hd] at h; cases h
  | cons c cs =>
      rw [hd] at h
      obtain ⟨h1, h2⟩ := dropWhile_append_stable numChar a c cs b hd
      cases hr : readIntChars (a.takeWhile numChar) with
      | none => rw [hr] at h; cases h
      | some m =>
          rw [hr] at h
          simp only [Option.some.injEq, Prod.mk.injEq] at h
          obtain ⟨hv, hrr⟩ := h
          subst hv
          unfold parseNum
          rw [h1, h2, hr]
          rw [← hrr]
          rfl

theorem parseNum_length (a : List Char) (v : JValue) (r : List Char)
    (h : parseNum a = some (v, r)) : r.length < a.length := by
  unfold parseNum at h
  cases hd : a.dropWhile numChar with
  | nil => rw [hd] at h; cases h
  | cons c cs =>
      rw [hd] at h
      cases hr : readIntChars (a.takeWhile numChar) with
      | none => rw [hr] at h; cases h
      | some m =>
          rw [hr] at h
          simp only [Option.some.injEq, Prod.mk.injEq] at h
          obtain ⟨hv, hrr⟩ := h
          have htne : a.takeWhile numChar ≠ [] := by
            intro he
            rw [he] at hr
            cases hr
          have hsplit : a.takeWhile numChar ++ a.dropWhile numChar = a :=
            List.takeWhile_append_dropWhile numChar a
          have := congrArg List.length hsplit
          rw [List.length_append] at this
          have htpos : 0 < (a.takeWhile numChar).length := by
            cases hte : a.takeWhile numChar with
            | nil => exact absurd hte htne
            | cons x xs => simp [hte]
          rw [hd] at this
          simp only [List.length_cons] at this
          rw [← hrr]
          simp only [List.length_cons]
          omega

theorem parseValF_succ (fuel : Nat) (input : List Char) :
    parseValF (fuel + 1) input =
      match skipWs input with
      | [] => none
      | c :: cs =>
        if c = 'n' then (matchLit ['u', 'l', 'l'] cs).map (fun r => (JValue.jnull, r))
        else if c = 't' then
          (matchLit ['r', 'u', 'e'] cs).map (fun r => (JValue.jbool true, r))
        else if c = 'f' then
          (matchLit ['a', 'l', 's', 'e'] cs).map (fun r => (JValue.jbool false, r))
        else if c = '"' then (parseStrTail cs).map (fun p => (JValue.jstr p.1, p.2))
        else if c = '[' then parseElemsF fuel (skipWs cs)
        else if c = '{' then parseFieldsF fuel (skipWs cs)
        else if numChar c then parseNum (c :: cs)
        else none := by
  rw [parseValF.eq_def]

theorem parseElemsF_succ (fuel : Nat) (input : List Char) :
    parseElemsF (fuel + 1) input =
      match input with
      | ']' :: rest => some (.jarr [], rest)
      | _ =>
        match parseValF fuel input with
        | none => none
        | some (v, r) =>
          match parseElemsSepF fuel (skipWs r) with
          | none => none
          | some (vs, r2) => some (.jarr (v :: vs), r2) := by
  rw [parseElemsF.eq_def]

theorem parseElemsSepF_succ (fuel : Nat) (input : List Char) :
    parseElemsSepF (fuel + 1) input =
      match input with
      | ']' :: rest => some ([], rest)
      | ',' :: rest =>
        match parseValF fuel rest with
        | none => none
        | some (v, r) =>
          match parseElemsSepF fuel (skipWs r) with
          | none => none
          | some (vs, r2) => some (v :: vs, r2)
      | _ => none := by
  rw [parseElemsSepF.eq_def]

theorem parseFieldsF_succ (fuel : Nat) (input : List Char) :
    parseFieldsF (fuel + 1) input =
      match input with
      | '\x7d' :: rest => some (.jobj [], rest)
      | '"' :: cs =>
        match parseStrTail cs with
        | none => none
        | some (k, r) =>
          match skipWs r with
          | ':' :: r2 =>
            match parseValF fuel r2 with
            | none => none
            | some (v, r3) =>
              match parseFieldsSepF fuel (skipWs r3) with
              | none => none
              | some (fs, r4) => some (.jobj ((k, v) :: fs), r4)
          | _ => none
      | _ => none := by
  rw [parseFieldsF.eq_def]

theorem parseFieldsSepF_succ (fuel : Nat) (input : List Char) :
    parseFieldsSepF (fuel + 1) input =
      match input with
      | '\x7d' :: rest => some ([], rest)
      | ',' :: rest =>
        match skipWs rest with
        | '"' :: cs =>
          match parseStrTail cs with
          | none => none
          | some (k, r) =>
            match skipWs r with
            | ':' :: r2 =>
              match parseValF fuel r2 with
              | none => none
              | some (v, r3) =>
                match parseFieldsSepF fuel (skipWs r3) with
                | none => none
                | some (fs, r4) => some ((k, v) :: fs, r4)
            | _ => none
        | _ => none
      | _ => none := by
  rw [parseFieldsSepF.eq_def]

theorem parseValF_skipnil (f : Nat) (input : List Char) (hsk : skipWs input = []) :
    parseValF f input = none := by
  cases f with
  | zero => rfl
  | succ f => rw [parseValF_succ, hsk]

theorem parseValF_skip (fuel : Nat) (input : List Char) (c : Char) (cs : List Char)
    (hsk : skipWs input = c :: cs) :
    parseValF (fuel + 1) input =
      (if c = 'n' then (matchLit ['u', 'l', 'l'] cs).map (fun r => (JValue.jnull, r))
      else if c = 't' then
        (matchLit ['r', 'u', 'e'] cs).map (fun r => (JValue.jbool true, r))
      else if c = 'f' then
        (matchLit ['a', 'l', 's', 'e'] cs).map (fun r => (JValue.jbool false, r))
      else if c = '"' then (parseStrTail cs).map (fun p => (JValue.jstr p.1, p.2))
      else if c = '[' then parseElemsF fuel (skipWs cs)
      else if c = '{' then parseFieldsF fuel (skipWs cs)
      else if numChar c then parseNum (c :: cs)
      else none) := by
  rw [parseValF_succ, hsk]

theorem parseElemsF_close (f : Nat) (rest : List Char) :
    parseElemsF (f + 1) (']' :: rest) = some (.jarr [], rest) := by
  rw [parseElemsF_succ]; simp

theorem parseElemsF_go (f : Nat) (c : Char) (cs : List Char) (hc : ¬ c = ']') :
    parseElemsF (f + 1) (c :: cs) =
      (match parseValF f (c :: cs) with
      | none => none
      | some (v, r) =>
        match parseElemsSepF f (skipWs r) with
        | none => none
        | some (vs, r2) => some (.jarr (v :: vs), r2)) := by
  rw [parseElemsF_succ]
  split
  · rename_i heq
    injection heq with h1 h2
    exact absurd h1 hc
  · rfl

theorem parseElemsSepF_close (f : Nat) (rest : List Char) :
    parseElemsSepF (f + 1) (']' :: rest) = some ([], rest) := by
  rw [parseElemsSepF_succ]; simp

theorem parseElemsSepF_comma (f : Nat) (rest : List Char) :
    parseElemsSepF (f + 1) (',' :: rest) =
      (match parseValF f rest with
      | none => none
      | some (v, r) =>
        match parseElemsSepF f (skipWs r) with
        | none => none
        | some (vs, r2) => some (v :: vs, r2)) := by
  rw [parseElemsSepF_succ]; simp

theorem parseElemsSepF_other (f : Nat) (c : Char) (cs : List Char)
    (h1 : ¬ c = ']') (h2 : ¬ c = ',') :
    parseElemsSepF (f + 1) (c :: cs) = none := by
  rw [parseElemsSepF_succ]
  split
  · rename_i heq
    injection heq with hh _
    exact absurd hh h1
  · rename_i heq
    injection heq with hh _
    exact absurd hh h2
  · rfl

theorem parseFieldsF_close (f : Nat) (rest : List Char) :
    parseFieldsF (f + 1) ('\x7d' :: rest) = some (.jobj [], rest) := by
  rw [parseFieldsF_succ]; simp

theorem parseFieldsF_key (f : Nat) (cs : List Char) :
    parseFieldsF (f + 1) ('"' :: cs) =
      (match parseStrTail cs with
      | none => none
      | some (k, r) =>
        match skipWs r with
        | ':' :: r2 =>
          match parseValF f r2 with
          | none => none
          | some (v, r3) =>
            match parseFieldsSepF f (skipWs r3) with
            | none => none
            | some (fs, r4) => some (.jobj ((k, v) :: fs), r4)
        | _ => none) := by
  rw [parseFieldsF_succ]; simp

theorem parseFieldsF_other (f : Nat) (c : Char) (cs : List Char)
    (h1 : ¬ c = '\x7d') (h2 : ¬ c = '"') :
    parseFieldsF (f + 1) (c :: cs) = none := by
  rw [parseFieldsF_succ]
  split
  · rename_i heq
    injection heq with hh _
    exact absurd hh h1
  · rename_i heq
    injection heq with hh _
    exact absurd hh h2
  · rfl

theorem parseFieldsSepF_close (f : Nat) (rest : List Char) :
    parseFieldsSepF (f + 1) ('\x7d' :: rest) = some ([], rest) := by
  rw [parseFieldsSepF_succ]; simp

theorem parseFieldsSepF_comma (f : Nat) (rest : List Char) :
    parseFieldsSepF (f + 1) (',' :: rest) =
      (match skipWs rest with
      | '"' :: cs =>
        match parseStrTail cs with
        | none => none
        | some (k, r) =>
          match skipWs r with
          | ':' :: r2 =>
            match parseValF f r2 with
            | none => none
            | some (v, r3) =>
              match parseFieldsSepF f (skipWs r3) with
              | none => none
              | some (fs, r4) => some ((k, v) :: fs, r4)
          | _ => none
      | _ => none) := by
  rw [parseFieldsSepF_succ]; simp

theorem parseFieldsSepF_other (f : Nat) (c : Char) (cs : List Char)
    (h1 : ¬ c = '\x7d') (h2 : ¬ c = ',') :
    parseFieldsSepF (f + 1) (c :: cs) = none := by
  rw [parseFieldsSepF_succ]
  split
  · rename_i heq
    injection heq with hh _
    exact absurd hh h1
  · rename_i heq
    injection heq with hh _
    exact absurd hh h2
  · rfl

/-- Combined metatheory of the fuel parsers, by induction on fuel: a
successful parse is stable under extending the input (the parsed value
and the *extended* remainder come back — possible because a number token
only parses when its stopping character is already present), consumes at
least one character, and survives a fuel increase. -/
theorem parse_props (fuel : Nat) :
    (∀ a v r, parseValF fuel a = some (v, r) →
      (∀ b, parseValF fuel (a ++ b) = some (v, r ++ b)) ∧ r.length < a.length ∧
        parseValF (fuel + 1) a = some (v, r)) ∧
    (∀ a v r, parseElemsF fuel a = some (v, r) →
      (∀ b, parseElemsF fuel (a ++ b) = some (v, r ++ b)) ∧ r.length < a.length ∧
        parseElemsF (fuel + 1) a = some (v, r)) ∧
    (∀ a vs r, parseElemsSepF fuel a = some (vs, r) →
      (∀ b, parseElemsSepF fuel (a ++ b) = some (vs, r ++ b)) ∧ r.length < a.length ∧
        parseElemsSepF (fuel + 1) a = some (vs, r)) ∧
    (∀ a v r, parseFieldsF fuel a = some (v, r) →
      (∀ b, parseFieldsF fuel (a ++ b) = some (v, r ++ b)) ∧ r.length < a.length ∧
        parseFieldsF (fuel + 1) a = some (v, r)) ∧
    (∀ a fs r, parseFieldsSepF fuel a = some (fs, r) →
      (∀ b, parseFieldsSepF fuel (a ++ b) = some (fs, r ++ b)) ∧ r.length < a.length ∧
        parseFieldsSepF (fuel + 1) a = some (fs, r)) := by
  induction fuel with
  | zero =>
      refine ⟨?_, ?_, ?_, ?_, ?_⟩
      · intro a v r h
        rw [parseValF.eq_def] at h
        simp at h
      · intro a v r h
        rw [parseElemsF.eq_def] at h
        simp at h
      · intro a vs r h
        rw [parseElemsSepF.eq_def] at h
        simp at h
      · intro a v r h
        rw [parseFieldsF.eq_def] at h
        simp at h
      · intro a fs r h
        rw [parseFieldsSepF.eq_def] at h
        simp at h
  | succ fuel ih =>
      obtain ⟨ihV, ihE, ihES, ihF, ihFS⟩ := ih
      refine ⟨?_, ?_, ?_, ?_, ?_⟩
      · -- parseValF
        intro a v r h
        cases hsk : skipWs a with
        | nil => rw [parseValF_skipnil (fuel + 1) a hsk] at h; cases h
        | cons c cs =>
          have hsl := skipWs_length a
          rw [hsk] at hsl
          simp only [List.length_cons] at hsl
          have hskb : ∀ b, skipWs (a ++ b) = c :: (cs ++ b) :=
            fun b => skipWs_append a c cs b hsk
          rw [parseValF_skip fuel a c cs hsk] at h
          by_cases hn : c = 'n'
          · rw [if_pos hn] at h
            cases hm : matchLit ['u', 'l', 'l'] cs with
            | none => rw [hm] at h; simp at h
            | some r0 =>
              rw [hm] at h
              simp only [Option.map_some'] at h
              injection h with heq
              injection heq with hv hr
              subst hv
              subst hr
              obtain ⟨hmb, hml⟩ := matchLit_props ['u', 'l', 'l'] cs r0 hm
              refine ⟨?_, by omega, ?_⟩
              · intro b
                rw [parseValF_skip fuel (a ++ b) c (cs ++ b) (hskb b), if_pos hn, hmb b]
                rfl
              · rw [parseValF_skip (fuel + 1) a c cs hsk, if_pos hn, hm]
                rfl
          · rw [if_neg hn] at h
            by_cases ht : c = 't'
            · rw [if_pos ht] at h
              cases hm : matchLit ['r', 'u', 'e'] cs with
              | none => rw [hm] at h; simp at h
              | some r0 =>
                rw [hm] at h
                simp only [Option.map_some'] at h
                injection h with heq
                injection heq with hv hr
                subst hv
                subst hr
                obtain ⟨hmb, hml⟩ := matchLit_props ['r', 'u', 'e'] cs r0 hm
                refine ⟨?_, by omega, ?_⟩
                · intro b
                  rw [parseValF_skip fuel (a ++ b) c (cs ++ b) (hskb b), if_neg hn,
                    if_pos ht, hmb b]
                  rfl
                · rw [parseValF_skip (fuel + 1) a c cs hsk, if_neg hn, if_pos ht, hm]
                  rfl
            · rw [if_neg ht] at h
              by_cases hf : c = 'f'
              · rw [if_pos hf] at h
                cases hm : matchLit ['a', 'l', 's', 'e'] cs with
                | none => rw [hm] at h; simp at h
                | some r0 =>
                  rw [hm] at h
                  simp only [Option.map_some'] at h
                  injection h with heq
                  injection heq with hv hr
                  subst hv
                  subst hr
                  obtain ⟨hmb, hml⟩ := matchLit_props ['a', 'l', 's', 'e'] cs r0 hm
                  refine ⟨?_, by omega, ?_⟩
                  · intro b
                    rw [parseValF_skip fuel (a ++ b) c (cs ++ b) (hskb b), if_neg hn,
                      if_neg ht, if_pos hf, hmb b]
                    rfl
                  · rw [parseValF_skip (fuel + 1) a c cs hsk, if_neg hn, if_neg ht,
                      if_pos hf, hm]
                    rfl
              · rw [if_neg hf] at h
                by_cases hq : c = '"'
                · rw [if_pos hq] at h
                  cases hst : parseStrTail cs with
                  | none => rw [hst] at h; simp at h
                  | some p =>
                    obtain ⟨s0, r0⟩ := p
                    rw [hst] at h
                    simp only [Option.map_some'] at h
                    injection h with heq
                    injection heq with hv hr
                    subst hv
                    subst hr
                    obtain ⟨hstb, hstl⟩ := parseStrTail_props cs s0 r0 hst
                    refine ⟨?_, by omega, ?_⟩
                    · intro b
                      rw [parseValF_skip fuel (a ++ b) c (cs ++ b) (hskb b), if_neg hn,
                        if_neg ht, if_neg hf, if_pos hq, hstb b]
                      rfl
                    · rw [parseValF_skip (fuel + 1) a c cs hsk, if_neg hn, if_neg ht,
                        if_neg hf, if_pos hq, hst]
                      rfl
                · rw [if_neg hq] at h
                  by_cases hbr : c = '['
                  · rw [if_pos hbr] at h
                    cases hsk2 : skipWs cs with
                    | nil => rw [hsk2, parseElemsF_nil] at h; cases h
                    | cons d ds =>
                      rw [hsk2] at h
                      obtain ⟨hEb, hEl, hEm⟩ := ihE (d :: ds) v r h
                      simp only [List.length_cons] at hEl
                      have hsl2 := skipWs_length cs
                      rw [hsk2] at hsl2
                      simp only [List.length_cons] at hsl2
                      refine ⟨?_, by omega, ?_⟩
                      · intro b
                        rw [parseValF_skip fuel (a ++ b) c (cs ++ b) (hskb b), if_neg hn,
                          if_neg ht, if_neg hf, if_neg hq, if_pos hbr,
                          skipWs_append cs d ds b hsk2]
                        exact hEb b
                      · rw [parseValF_skip (fuel + 1) a c cs hsk, if_neg hn, if_neg ht,
                          if_neg hf, if_neg hq, if_pos hbr, hsk2]
                        exact hEm
                  · rw [if_neg hbr] at h
                    by_cases hob : c = '{'
                    · rw [if_pos hob] at h
                      cases hsk2 : skipWs cs with
                      | nil => rw [hsk2, parseFieldsF_nil] at h; cases h
                      | cons d ds =>
                        rw [hsk2] at h
                        obtain ⟨hFb, hFl, hFm⟩ := ihF (d :: ds) v r h
                        simp only [List.length_cons] at hFl
                        have hsl2 := skipWs_length cs
                        rw [hsk2] at hsl2
                        simp only [List.length_cons] at hsl2
                        refine ⟨?_, by omega, ?_⟩
                        · intro b
                          rw [parseValF_skip fuel (a ++ b) c (cs ++ b) (hskb b), if_neg hn,
                            if_neg ht, if_neg hf, if_neg hq, if_neg hbr, if_pos hob,
                            skipWs_append cs d ds b hsk2]
                          exact hFb b
                        · rw [parseValF_skip (fuel + 1) a c cs hsk, if_neg hn, if_neg ht,
                            if_neg hf, if_neg hq, if_neg hbr, if_pos hob, hsk2]
                          exact hFm
                    · rw [if_neg hob] at h
                      by_cases hnum : numChar c = true
                      · rw [if_pos hnum] at h
                        have hlen := parseNum_length (c :: cs) v r h
                        simp only [List.length_cons] at hlen
                        refine ⟨?_, by omega, ?_⟩
                        · intro b
                          rw [parseValF_skip fuel (a ++ b) c (cs ++ b) (hskb b), if_neg hn,
                            if_neg ht, if_neg hf, if_neg hq, if_neg hbr, if_neg hob,
                            if_pos hnum]
                          exact parseNum_append (c :: cs) v r h b
                        · rw [parseValF_skip (fuel + 1) a c cs hsk, if_neg hn, if_neg ht,
                            if_neg hf, if_neg hq, if_neg hbr, if_neg hob, if_pos hnum]
                          exact h
                      · rw [if_neg hnum] at h
                        cases h
      · -- parseElemsF
        intro a v r h
        cases a with
        | nil => rw [parseElemsF_nil] at h; cases h
        | cons c cs =>
          by_cases hc : c = ']'
          · subst hc
            rw [parseElemsF_close fuel cs] at h
            injection h with heq
            injection heq with hv hr
            subst hv
            subst hr
            exact ⟨fun b => parseElemsF_close fuel (cs ++ b), by simp,
              parseElemsF_close (fuel + 1) cs⟩
          · rw [parseElemsF_go fuel c cs hc] at h
            split at h
            · cases h
            · next v1 r1 hv1 =>
              split at h
              · cases h
              · next vs1 r2 hsep =>
                injection h with heq
                injection heq with hv hr
                subst hv
                subst hr
                obtain ⟨hVb, hVl, hVm⟩ := ihV (c :: cs) v1 r1 hv1
                simp only [List.length_cons] at hVl
                cases hskr : skipWs r1 with
                | nil => rw [hskr, parseElemsSepF_nil] at hsep; cases hsep
                | cons d ds =>
                  rw [hskr] at hsep
                  obtain ⟨hSb, hSl, hSm⟩ := ihES (d :: ds) vs1 r2 hsep
                  simp only [List.length_cons] at hSl
                  have hsl2 := skipWs_length r1
                  rw [hskr] at hsl2
                  simp only [List.length_cons] at hsl2
                  refine ⟨?_, ?_, ?_⟩
                  · intro b
                    rw [show (c :: cs) ++ b = c :: (cs ++ b) from rfl,
                      parseElemsF_go fuel c (cs ++ b) hc]
                    have hVb2 : parseValF fuel (c :: (cs ++ b)) = some (v1, r1 ++ b) := hVb b
                    have hSb2 : parseElemsSepF fuel (skipWs (r1 ++ b)) =
                        some (vs1, r2 ++ b) := by
                      rw [skipWs_append r1 d ds b hskr]
                      exact hSb b
                    simp only [hVb2, hSb2]
                  · simp only [List.length_cons]
                    omega
                  · rw [parseElemsF_go (fuel + 1) c cs hc]
                    simp only [hVm, hskr, hSm]
      · -- parseElemsSepF
        intro a vs r h
        cases a with
        | nil => rw [parseElemsSepF_nil] at h; cases h
        | cons c cs =>
          by_cases hc : c = ']'
          · subst hc
            rw [parseElemsSepF_close fuel cs] at h
            injection h with heq
            injection heq with hv hr
            subst hv
            subst hr
            exact ⟨fun b => parseElemsSepF_close fuel (cs ++ b), by simp,
              parseElemsSepF_close (fuel + 1) cs⟩
          · by_cases hcm : c = ','
            · subst hcm
              rw [parseElemsSepF_comma fuel cs] at h
              split at h
              · cases h
              · next v1 r1 hv1 =>
                split at h
                · cases h
                · next vs1 r2 hsep =>
                  injection h with heq
                  injection heq with hv hr
                  subst hv
                  subst hr
                  obtain ⟨hVb, hVl, hVm⟩ := ihV cs v1 r1 hv1
                  cases hskr : skipWs r1 with
                  | nil => rw [hskr, parseElemsSepF_nil] at hsep; cases hsep
                  | cons d ds =>
                    rw [hskr] at hsep
                    obtain ⟨hSb, hSl, hSm⟩ := ihES (d :: ds) vs1 r2 hsep
                    simp only [List.length_cons] at hSl
                    have hsl2 := skipWs_length r1
                    rw [hskr] at hsl2
                    simp only [List.length_cons] at hsl2
                    refine ⟨?_, ?_, ?_⟩
                    · intro b
                      rw [show (',' :: cs) ++ b = ',' :: (cs ++ b) from rfl,
                        parseElemsSepF_comma fuel (cs ++ b)]
                      have hVb2 : parseValF fuel (cs ++ b) = some (v1, r1 ++ b) := hVb b
                      have hSb2 : parseElemsSepF fuel (skipWs (r1 ++ b)) =
                          some (vs1, r2 ++ b) := by
                        rw [skipWs_append r1 d ds b hskr]
                        exact hSb b
                      simp only [hVb2, hSb2]
                    · simp only [List.length_cons]
                      omega
                    · rw [parseElemsSepF_comma (fuel + 1) cs]
                      simp only [hVm, hskr, hSm]
            · rw [parseElemsSepF_other fuel c cs hc hcm] at h
              cases h
      · -- parseFieldsF
        intro a v r h
        cases a with
        | nil => rw [parseFieldsF_nil] at h; cases h
        | cons c cs =>
          by_cases hc : c = '\x7d'
          · subst hc
            rw [parseFieldsF_close fuel cs] at h
            injection h with heq
            injection heq with hv hr
            subst hv
            subst hr
            exact ⟨fun b => parseFieldsF_close fuel (cs ++ b), by simp,
              parseFieldsF_close (fuel + 1) cs⟩
          · by_cases hq : c = '"'
            · subst hq
              rw [parseFieldsF_key fuel cs] at h
              split at h
              · cases h
              · next k0 r0 hst =>
                split at h
                · next r2 hcol =>
                  split at h
                  · cases h
                  · next v1 r3 hval =>
                    split at h
                    · cases h
                    · next fs1 r4 hsep =>
                      injection h with heq
                      injection heq with hv hr
                      subst hv
                      subst hr
                      obtain ⟨hstb, hstl⟩ := parseStrTail_props cs k0 r0 hst
                      obtain ⟨hVb, hVl, hVm⟩ := ihV r2 v1 r3 hval
                      cases hskr : skipWs r3 with
                      | nil => rw [hskr, parseFieldsSepF_nil] at hsep; cases hsep
                      | cons d ds =>
                        rw [hskr] at hsep
                        obtain ⟨hSb, hSl, hSm⟩ := ihFS (d :: ds) fs1 r4 hsep
                        simp only [List.length_cons] at hSl
                        have hl0 := skipWs_length r0
                        rw [hcol] at hl0
                        simp only [List.length_cons] at hl0
                        have hl3 := skipWs_length r3
                        rw [hskr] at hl3
                        simp only [List.length_cons] at hl3
                        refine ⟨?_, ?_, ?_⟩
                        · intro b
                          rw [show ('"' :: cs) ++ b = '"' :: (cs ++ b) from rfl,
                            parseFieldsF_key fuel (cs ++ b)]
                          have h1 : parseStrTail (cs ++ b) = some (k0, r0 ++ b) := hstb b
                          have h2 : skipWs (r0 ++ b) = ':' :: (r2 ++ b) :=
                            skipWs_append r0 ':' r2 b hcol
                          have h3 : parseValF fuel (r2 ++ b) = some (v1, r3 ++ b) := hVb b
                          have h4 : parseFieldsSepF fuel (skipWs (r3 ++ b)) =
                              some (fs1, r4 ++ b) := by
                            rw [skipWs_append r3 d ds b hskr]
                            exact hSb b
                          simp only [h1, h2, h3, h4]
                        · simp only [List.length_cons]
                          omega
                        · rw [parseFieldsF_key (fuel + 1) cs]
                          simp only [hst, hcol, hVm, hskr, hSm]
                · cases h
            · rw [parseFieldsF_other fuel c cs hc hq] at h
              cases h
      · -- parseFieldsSepF
        intro a fs r h
        cases a with
        | nil => rw [parseFieldsSepF_nil] at h; cases h
        | cons c cs =>
          by_cases hc : c = '\x7d'
          · subst hc
            rw [parseFieldsSepF_close fuel cs] at h
            injection h with heq
            injection heq with hv hr
            subst hv
            subst hr
            exact ⟨fun b => parseFieldsSepF_close fuel (cs ++ b), by simp,
              parseFieldsSepF_close (fuel + 1) cs⟩
          · by_cases hcm : c = ','
            · subst hcm
              rw [parseFieldsSepF_comma fuel cs] at h
              split at h
              · next cs2 hq2 =>
                split at h
                · cases h
                · next k0 r0 hst =>
                  split at h
                  · next r2 hcol =>
                    split at h
                    · cases h
                    · next v1 r3 hval =>
                      split at h
                      · cases h
                      · next fs1 r4 hsep =>
                        injection h with heq
                        injection heq with hv hr
                        subst hv
                        subst hr
                        obtain ⟨hstb, hstl⟩ := parseStrTail_props cs2 k0 r0 hst
                        obtain ⟨hVb, hVl, hVm⟩ := ihV r2 v1 r3 hval
                        cases hskr : skipWs r3 with
                        | nil => rw [hskr, parseFieldsSepF_nil] at hsep; cases hsep
                        | cons d ds =>
                          rw [hskr] at hsep
                          obtain ⟨hSb, hSl, hSm⟩ := ihFS (d :: ds) fs1 r4 hsep
                          simp only [List.length_cons] at hSl
                          have hl0 := skipWs_length r0
                          rw [hcol] at hl0
                          simp only [List.length_cons] at hl0
                          have hl3 := skipWs_length r3
                          rw [hskr] at hl3
                          simp only [List.length_cons] at hl3
                          have hlcs := skipWs_length cs
                          rw [hq2] at hlcs
                          simp only [List.length_cons] at hlcs
                          refine ⟨?_, ?_, ?_⟩
                          · intro b
                            rw [show (',' :: cs) ++ b = ',' :: (cs ++ b) from rfl,
                              parseFieldsSepF_comma fuel (cs ++ b)]
                            have h0 : skipWs (cs ++ b) = '"' :: (cs2 ++ b) :=
                              skipWs_append cs '"' cs2 b hq2
                            have h1 : parseStrTail (cs2 ++ b) = some (k0, r0 ++ b) := hstb b
                            have h2 : skipWs (r0 ++ b) = ':' :: (r2 ++ b) :=
                              skipWs_append r0 ':' r2 b hcol
                            have h3 : parseValF fuel (r2 ++ b) = some (v1, r3 ++ b) := hVb b
                            have h4 : parseFieldsSepF fuel (skipWs (r3 ++ b)) =
                                some (fs1, r4 ++ b) := by
                              rw [skipWs_append r3 d ds b hskr]
                              exact hSb b
                            simp only [h0, h1, h2, h3, h4]
                          · simp only [List.length_cons]
                            omega
                          · rw [parseFieldsSepF_comma (fuel + 1) cs]
                            simp only [hq2, hst, hcol, hVm, hskr, hSm]
                  · cases h
              · cases h
            · rw [parseFieldsSepF_other fuel c cs hc hcm] at h
              cases h

theorem parseValF_mono (f1 f2 : Nat) (h : f1 ≤ f2) (a : List Char) (v : JValue)
    (r : List Char) (hp : parseValF f1 a = some (v, r)) : parseValF f2 a = some (v, r) := by
  induction h with
  | refl => exact hp
  | step h2 ih => exact ((parse_props _).1 a v r ih).2.2

theorem munch_extend (x : List Char) (v : JValue) (r : List Char)
    (h : munch x = some (v, r)) : ∀ y, munch (x ++ y) = some (v, r ++ y) := by
  intro y
  have h2 : parseValF ((x ++ y).length + 1) x = some (v, r) :=
    parseValF_mono (x.length + 1) ((x ++ y).length + 1)
      (by rw [List.length_append]; omega) x v r h
  exact ((parse_props _).1 x v r h2).1 y

theorem munch_consumes (x : List Char) (v : JValue) (r : List Char)
    (h : munch x = some (v, r)) : r.length < x.length :=
  ((parse_props _).1 x v r h).2.1

theorem munch_nil : munch [] = none := parseValF_nil 1

theorem emitAllF_succ (f : Nat) (input : List Char) :
    emitAllF (f + 1) input =
      match munch input with
      | none => ([], input)
      | some (v, r) =>
        match emitAllF f r with
        | (vs, r2) => (v :: vs, r2) := by
  rw [emitAllF.eq_def]

theorem emitAllF_irrel : ∀ f1 f2 input, input.length < f1 → input.length < f2 →
    emitAllF f1 input = emitAllF f2 input := by
  intro f1
  induction f1 with
  | zero => intro f2 input h1 h2; exact absurd h1 (by omega)
  | succ g ih =>
      intro f2 input h1 h2
      cases f2 with
      | zero => exact absurd h2 (by omega)
      | succ k =>
          rw [emitAllF_succ g input, emitAllF_succ k input]
          cases hm : munch input with
          | none => simp only [hm]
          | some p =>
              obtain ⟨v, r⟩ := p
              have hr := munch_consumes input v r hm
              simp only [hm]
              rw [ih k r (by omega) (by omega)]

theorem emitAll_none (input : List Char) (h : munch input = none) :
    emitAll input = ([], input) := by
  unfold emitAll
  rw [emitAllF_succ]
  simp only [h]

theorem emitAll_some (input : List Char) (v : JValue) (r : List Char)
    (h : munch input = some (v, r)) :
    emitAll input = (v :: (emitAll r).1, (emitAll r).2) := by
  unfold emitAll
  rw [emitAllF_succ]
  simp only [h]
  have hr := munch_consumes input v r h
  rw [emitAllF_irrel (r.length + 1) input.length r (by omega) (by omega)]

theorem emitAll_stuck_aux : ∀ n input, input.length ≤ n → munch (emitAll input).2 = none := by
  intro n
  induction n with
  | zero =>
      intro input h
      have hin : input = [] := List.length_eq_zero.mp (by omega)
      subst hin
      rw [emitAll_none [] munch_nil]
      exact munch_nil
  | succ n ih =>
      intro input h
      cases hm : munch input with
      | none => rw [emitAll_none input hm]; exact hm
      | some p =>
          obtain ⟨v, r⟩ := p
          rw [emitAll_some input v r hm]
          exact ih r (by have := munch_consumes input v r hm; omega)

theorem emitAll_residue_stuck (input : List Char) : munch (emitAll input).2 = none :=
  emitAll_stuck_aux input.length input le_rfl

theorem emitAll_compose_aux : ∀ n x y, x.length ≤ n →
    emitAll (x ++ y) = ((emitAll x).1 ++ (emitAll ((emitAll x).2 ++ y)).1,
      (emitAll ((emitAll x).2 ++ y)).2) := by
  intro n
  induction n with
  | zero =>
      intro x y h
      have hx : x = [] := List.length_eq_zero.mp (by omega)
      subst hx
      rw [emitAll_none [] munch_nil]
      simp
  | succ n ih =>
      intro x y h
      cases hm : munch x with
      | none =>
          rw [emitAll_none x hm]
          simp
      | some p =>
          obtain ⟨v, r⟩ := p
          rw [emitAll_some x v r hm,
            emitAll_some (x ++ y) v (r ++ y) (munch_extend x v r hm y),
            ih r y (by have := munch_consumes x v r hm; omega)]
          simp

theorem emitAll_compose (x y : List Char) :
    emitAll (x ++ y) = ((emitAll x).1 ++ (emitAll ((emitAll x).2 ++ y)).1,
      (emitAll ((emitAll x).2 ++ y)).2) :=
  emitAll_compose_aux x.length x y le_rfl

theorem feedChunk_eq (buf ch : List Char) (out : List JValue) :
    feedChunk (buf, out) ch = ((emitAll (buf ++ ch)).2, out ++ (emitAll (buf ++ ch)).1) := by
  unfold feedChunk
  rfl

theorem foldl_feed : ∀ (chunks : List (List Char)) (buf : List Char)
    (out : List JValue), munch buf = none →
    chunks.foldl feedChunk (buf, out) =
      ((emitAll (buf ++ chunks.flatten)).2, out ++ (emitAll (buf ++ chunks.flatten)).1) := by
  intro chunks
  induction chunks with
  | nil =>
      intro buf out hstuck
      simp only [List.foldl_nil, List.flatten_nil, List.append_nil]
      rw [emitAll_none buf hstuck]
      simp
  | cons ch chs ih =>
      intro buf out hstuck
      simp only [List.foldl_cons]
      rw [feedChunk_eq buf ch out, ih _ _ (emitAll_residue_stuck (buf ++ ch))]
      rw [show buf ++ (ch :: chs).flatten = (buf ++ ch) ++ chs.flatten from by
        simp [List.flatten_cons, List.append_assoc]]
      rw [emitAll_compose (buf ++ ch) chs.flatten]
      simp [List.append_assoc]

/-- The values the decoder emits for a chunk sequence depend only on the
concatenation of the chunks. -/
theorem decodeChunks_flatten (chunks : List (List Char)) :
    decodeChunks chunks = (emitAll chunks.flatten).1 := by
  unfold decodeChunks
  rw [foldl_feed chunks [] [] munch_nil]
  simp

/-- The serialisation of an array tail: a leading comma before every
element (what follows the first element inside `serializeElems`). -/
def serializeElemsSep : List JValue → List Char
  | [] => []
  | v :: vs => ',' :: (serialize v ++ serializeElemsSep vs)

/-- The serialisation of an object tail: a leading comma before every
member. -/
def serializeFieldsSep : List (List Char × JValue) → List Char
  | [] => []
  | (k, v) :: fs =>
      ',' :: '"' :: (escapeString k ++ '"' :: ':' :: (serialize v ++ serializeFieldsSep fs))

theorem serializeElems_decomp : ∀ (vs : List JValue) (v : JValue),
    serializeElems (v :: vs) = serialize v ++ serializeElemsSep vs := by
  intro vs
  induction vs with
  | nil => intro v; simp [serializeElems, serializeElemsSep]
  | cons w ws ih =>
      intro v
      rw [show serializeElems (v :: w :: ws) = serialize v ++ ',' :: serializeElems (w :: ws)
        from by simp [serializeElems]]
      rw [ih w]
      simp [serializeElemsSep]

theorem serializeFields_decomp : ∀ (fs : List (List Char × JValue)) (k : List Char)
    (v : JValue), serializeFields ((k, v) :: fs) =
      '"' :: (escapeString k ++ '"' :: ':' :: (serialize v ++ serializeFieldsSep fs)) := by
  intro fs
  induction fs with
  | nil => intro k v; simp [serializeFields, serializeFieldsSep]
  | cons f2 ws ih =>
      intro k v
      obtain ⟨k2, v2⟩ := f2
      rw [show serializeFields ((k, v) :: (k2, v2) :: ws) =
        '"' :: escapeString k ++ '"' :: ':' :: serialize v ++ ',' ::
          serializeFields ((k2, v2) :: ws) from by simp [serializeFields]]
      rw [ih k2 v2]
      simp [serializeFieldsSep]

theorem serialize_length_pos (v : JValue) : 0 < (serialize v).length := by
  obtain ⟨c, cs, hc, _⟩ := serialize_head v
  rw [hc]
  simp

/-- Whether the characters `b` may directly follow a serialised value
without merging with it: after a number there must already be a character
that cannot extend the number token. -/
def followOk (v : JValue) (b : List Char) : Prop :=
  JValue.isNum v = true → ∃ c cs, b = c :: cs ∧ numChar c = false

theorem followOk_cons (v : JValue) (c : Char) (cs : List Char) (h : numChar c = false) :
    followOk v (c :: cs) :=
  fun _ => ⟨c, cs, rfl, h⟩

theorem followOk_sepElems (v : JValue) (rest : List JValue) (b : List Char) :
    followOk v (serializeElemsSep rest ++ ']' :: b) := by
  cases rest with
  | nil => exact followOk_cons v ']' b (by decide)
  | cons w ws =>
      exact followOk_cons v ','
        ((serialize w ++ serializeElemsSep ws) ++ ']' :: b) (by decide)

theorem followOk_sepFields (v : JValue) (rest : List (List Char × JValue)) (b : List Char) :
    followOk v (serializeFieldsSep rest ++ '\x7d' :: b) := by
  cases rest with
  | nil => exact followOk_cons v '\x7d' b (by decide)
  | cons f2 ws =>
      obtain ⟨k2, v2⟩ := f2
      exact followOk_cons v ','
        (('"' :: (escapeString k2 ++ '"' :: ':' :: (serialize v2 ++ serializeFieldsSep ws)))
          ++ '\x7d' :: b) (by decide)

theorem skipWs_serializeElems (vs : List JValue) (b : List Char) :
    skipWs (serializeElems vs ++ ']' :: b) = serializeElems vs ++ ']' :: b := by
  cases vs with
  | nil =>
      rw [show serializeElems [] = ([] : List Char) from by simp [serializeElems]]
      exact skipWs_cons_not_ws ']' b (by decide)
  | cons v rest =>
      rw [serializeElems_decomp rest v]
      obtain ⟨c, cs, hc, hws, _, _⟩ := serialize_head v
      rw [hc]
      exact skipWs_cons_not_ws c _ hws

theorem skipWs_sepElems (rest : List JValue) (b : List Char) :
    skipWs (serializeElemsSep rest ++ ']' :: b) = serializeElemsSep rest ++ ']' :: b := by
  cases rest with
  | nil => exact skipWs_cons_not_ws ']' b (by decide)
  | cons w ws => exact skipWs_cons_not_ws ',' _ (by decide)

theorem skipWs_serializeFields (fs : List (List Char × JValue)) (b : List Char) :
    skipWs (serializeFields fs ++ '\x7d' :: b) = serializeFields fs ++ '\x7d' :: b := by
  cases fs with
  | nil =>
      rw [show serializeFields [] = ([] : List Char) from by simp [serializeFields]]
      exact skipWs_cons_not_ws '\x7d' b (by decide)
  | cons f rest =>
      obtain ⟨k, v⟩ := f
      rw [serializeFields_decomp rest k v]
      exact skipWs_cons_not_ws '"' _ (by decide)

theorem skipWs_sepFields (rest : List (List Char × JValue)) (b : List Char) :
    skipWs (serializeFieldsSep rest ++ '\x7d' :: b) =
      serializeFieldsSep rest ++ '\x7d' :: b := by
  cases rest with
  | nil => exact skipWs_cons_not_ws '\x7d' b (by decide)
  | cons f ws =>
      obtain ⟨k, v⟩ := f
      exact skipWs_cons_not_ws ',' _ (by decide)

/-- The fuel parsers read back exactly what `serialize` wrote, with any
continuation `b` that cannot merge with the value (`followOk`); fuel at
least the serialisation's length suffices. -/
theorem parse_serialize : ∀ f : Nat,
    (∀ v b, (serialize v).length ≤ f → followOk v b →
      parseValF f (serialize v ++ b) = some (v, b)) ∧
    (∀ vs b, (serializeElems vs).length + 1 ≤ f →
      parseElemsF f (serializeElems vs ++ ']' :: b) = some (.jarr vs, b)) ∧
    (∀ vs b, (serializeElemsSep vs).length + 1 ≤ f →
      parseElemsSepF f (serializeElemsSep vs ++ ']' :: b) = some (vs, b)) ∧
    (∀ fs b, (serializeFields fs).length + 1 ≤ f →
      parseFieldsF f (serializeFields fs ++ '\x7d' :: b) = some (.jobj fs, b)) ∧
    (∀ fs b, (serializeFieldsSep fs).length + 1 ≤ f →
      parseFieldsSepF f (serializeFieldsSep fs ++ '\x7d' :: b) = some (fs, b)) := by
  intro f
  induction f using Nat.strong_induction_on with
  | _ f ih =>
  refine ⟨?_, ?_, ?_, ?_, ?_⟩
  · intro v b hlen hfol
    cases v with
    | jnull =>
        rw [show serialize JValue.jnull = ['n', 'u', 'l', 'l'] from by simp [serialize]]
          at hlen ⊢
        cases f with
        | zero => simp at hlen
        | succ f =>
            rw [parseValF_skip f (['n', 'u', 'l', 'l'] ++ b) 'n' ('u' :: 'l' :: 'l' :: b)
                (skipWs_cons_not_ws 'n' ('u' :: 'l' :: 'l' :: b) (by decide)),
              if_pos rfl,
              show matchLit ['u', 'l', 'l'] ('u' :: 'l' :: 'l' :: b) = some b from
                matchLit_self ['u', 'l', 'l'] b]
            rfl
    | jbool bl =>
        cases bl with
        | true =>
            rw [show serialize (JValue.jbool true) = ['t', 'r', 'u', 'e'] from by
              simp [serialize]] at hlen ⊢
            cases f with
            | zero => simp at hlen
            | succ f =>
                rw [parseValF_skip f (['t', 'r', 'u', 'e'] ++ b) 't'
                    ('r' :: 'u' :: 'e' :: b)
                    (skipWs_cons_not_ws 't' ('r' :: 'u' :: 'e' :: b) (by decide)),
                  if_neg (by decide : ¬ ('t' : Char) = 'n'), if_pos rfl,
                  show matchLit ['r', 'u', 'e'] ('r' :: 'u' :: 'e' :: b) = some b from
                    matchLit_self ['r', 'u', 'e'] b]
                rfl
        | false =>
            rw [show serialize (JValue.jbool false) = ['f', 'a', 'l', 's', 'e'] from by
              simp [serialize]] at hlen ⊢
            cases f with
            | zero => simp at hlen
            | succ f =>
                rw [parseValF_skip f (['f', 'a', 'l', 's', 'e'] ++ b) 'f'
                    ('a' :: 'l' :: 's' :: 'e' :: b)
                    (skipWs_cons_not_ws 'f' ('a' :: 'l' :: 's' :: 'e' :: b) (by decide)),
                  if_neg (by decide : ¬ ('f' : Char) = 'n'),
                  if_neg (by decide : ¬ ('f' : Char) = 't'), if_pos rfl,
                  show matchLit ['a', 'l', 's', 'e'] ('a' :: 'l' :: 's' :: 'e' :: b) =
                    some b from matchLit_self ['a', 'l', 's', 'e'] b]
                rfl
    | jnum n =>
        obtain ⟨c, cs, hb, hcnum⟩ := hfol rfl
        subst hb
        obtain ⟨c0, cs0, hc0, hd0⟩ := intToChars_head n
        obtain ⟨hn1, hn2, hn3, hn4, hn5, hn6, hnum, hws⟩ := num_head_dispatch c0 hd0
        rw [show serialize (JValue.jnum n) = intToChars n from by simp [serialize]]
          at hlen ⊢
        rw [hc0] at hlen
        simp only [List.length_cons] at hlen
        cases f with
        | zero => omega
        | succ f =>
            have hsk : skipWs (intToChars n ++ c :: cs) = c0 :: (cs0 ++ c :: cs) := by
              rw [hc0]
              exact skipWs_cons_not_ws c0 _ hws
            rw [parseValF_skip f (intToChars n ++ c :: cs) c0 (cs0 ++ c :: cs) hsk,
              if_neg hn1, if_neg hn2, if_neg hn3, if_neg hn4, if_neg hn5, if_neg hn6,
              if_pos hnum,
              show c0 :: (cs0 ++ c :: cs) = intToChars n ++ c :: cs from by simp [hc0]]
            exact parseNum_spec n c cs hcnum
    | jstr s =>
        rw [show serialize (JValue.jstr s) = '"' :: (escapeString s ++ ['"']) from by
          simp [serialize]] at hlen ⊢
        cases f with
        | zero => simp at hlen
        | succ f =>
            rw [show ('"' :: (escapeString s ++ ['"'])) ++ b =
              '"' :: (escapeString s ++ '"' :: b) from by simp]
            rw [parseValF_skip f ('"' :: (escapeString s ++ '"' :: b)) '"'
                (escapeString s ++ '"' :: b)
                (skipWs_cons_not_ws '"' (escapeString s ++ '"' :: b) (by decide)),
              if_neg (by decide : ¬ ('"' : Char) = 'n'),
              if_neg (by decide : ¬ ('"' : Char) = 't'),
              if_neg (by decide : ¬ ('"' : Char) = 'f'), if_pos rfl,
              parseStrTail_escape s b]
            rfl
    | jarr vs =>
        rw [show serialize (JValue.jarr vs) = '[' :: (serializeElems vs ++ [']']) from by
          simp [serialize]] at hlen ⊢
        simp only [List.length_cons, List.length_append, List.length_nil] at hlen
        cases f with
        | zero => omega
        | succ f =>
            rw [show ('[' :: (serializeElems vs ++ [']'])) ++ b =
              '[' :: (serializeElems vs ++ ']' :: b) from by simp]
            rw [parseValF_skip f ('[' :: (serializeElems vs ++ ']' :: b)) '['
                (serializeElems vs ++ ']' :: b)
                (skipWs_cons_not_ws '[' (serializeElems vs ++ ']' :: b) (by decide)),
              if_neg (by decide : ¬ ('[' : Char) = 'n'),
              if_neg (by decide : ¬ ('[' : Char) = 't'),
              if_neg (by decide : ¬ ('[' : Char) = 'f'),
              if_neg (by decide : ¬ ('[' : Char) = '"'), if_pos rfl,
              skipWs_serializeElems vs b]
            exact (ih f (by omega)).2.1 vs b (by omega)
    | jobj fs =>
        rw [show serialize (JValue.jobj fs) = '{' :: (serializeFields fs ++ ['\x7d'])
          from by simp [serialize]] at hlen ⊢
        simp only [List.length_cons, List.length_append, List.length_nil] at hlen
        cases f with
        | zero => omega
        | succ f =>
            rw [show ('{' :: (serializeFields fs ++ ['\x7d'])) ++ b =
              '{' :: (serializeFields fs ++ '\x7d' :: b) from by simp]
            rw [parseValF_skip f ('{' :: (serializeFields fs ++ '\x7d' :: b)) '{'
                (serializeFields fs ++ '\x7d' :: b)
                (skipWs_cons_not_ws '{' (serializeFields fs ++ '\x7d' :: b)
                  (by decide)),
              if_neg (by decide : ¬ ('{' : Char) = 'n'),
              if_neg (by decide : ¬ ('{' : Char) = 't'),
              if_neg (by decide : ¬ ('{' : Char) = 'f'),
              if_neg (by decide : ¬ ('{' : Char) = '"'),
              if_neg (by decide : ¬ ('{' : Char) = '['), if_pos rfl,
              skipWs_serializeFields fs b]
            exact (ih f (by omega)).2.2.2.1 fs b (by omega)
  · intro vs b hlen
    cases f with
    | zero => omega
    | succ f =>
        cases vs with
        | nil =>
            rw [show serializeElems [] = ([] : List Char) from by simp [serializeElems]]
            exact parseElemsF_close f b
        | cons v1 rest =>
            rw [serializeElems_decomp rest v1] at hlen ⊢
            rw [List.length_append] at hlen
            have hpos := serialize_length_pos v1
            rw [show (serialize v1 ++ serializeElemsSep rest) ++ ']' :: b =
              serialize v1 ++ (serializeElemsSep rest ++ ']' :: b) from by simp]
            obtain ⟨c1, cs1, hc1, hws1, hne1, _⟩ := serialize_head v1
            have hinput : serialize v1 ++ (serializeElemsSep rest ++ ']' :: b) =
                c1 :: (cs1 ++ (serializeElemsSep rest ++ ']' :: b)) := by
              rw [hc1]
              rfl
            rw [hinput, parseElemsF_go f c1 _ hne1]
            have hV : parseValF f (serialize v1 ++ (serializeElemsSep rest ++ ']' :: b)) =
                some (v1, serializeElemsSep rest ++ ']' :: b) :=
              (ih f (by omega)).1 v1 _ (by omega) (followOk_sepElems v1 rest b)
            have hV2 : parseValF f (c1 :: (cs1 ++ (serializeElemsSep rest ++ ']' :: b))) =
                some (v1, serializeElemsSep rest ++ ']' :: b) := by
              rw [← hinput]
              exact hV
            have hS : parseElemsSepF f (serializeElemsSep rest ++ ']' :: b) =
                some (rest, b) :=
              (ih f (by omega)).2.2.1 rest b (by omega)
            simp only [hV2, skipWs_sepElems rest b, hS]
  · intro vs b hlen
    cases f with
    | zero => omega
    | succ f =>
        cases vs with
        | nil => exact parseElemsSepF_close f b
        | cons w ws =>
            rw [show serializeElemsSep (w :: ws) =
              ',' :: (serialize w ++ serializeElemsSep ws) from rfl] at hlen ⊢
            simp only [List.length_cons, List.length_append] at hlen
            have hpos := serialize_length_pos w
            rw [show (',' :: (serialize w ++ serializeElemsSep ws)) ++ ']' :: b =
              ',' :: ((serialize w ++ serializeElemsSep ws) ++ ']' :: b) from rfl,
              parseElemsSepF_comma f ((serialize w ++ serializeElemsSep ws) ++ ']' :: b)]
            have ha : (serialize w ++ serializeElemsSep ws) ++ ']' :: b =
                serialize w ++ (serializeElemsSep ws ++ ']' :: b) := by simp
            have hV : parseValF f (serialize w ++ (serializeElemsSep ws ++ ']' :: b)) =
                some (w, serializeElemsSep ws ++ ']' :: b) :=
              (ih f (by omega)).1 w _ (by omega) (followOk_sepElems w ws b)
            have hV2 : parseValF f ((serialize w ++ serializeElemsSep ws) ++ ']' :: b) =
                some (w, serializeElemsSep ws ++ ']' :: b) := by
              rw [ha]
              exact hV
            have hS : parseElemsSepF f (serializeElemsSep ws ++ ']' :: b) =
                some (ws, b) :=
              (ih f (by omega)).2.2.1 ws b (by omega)
            simp only [hV2, skipWs_sepElems ws b, hS]
  · intro fs b hlen
    cases f with
    | zero => omega
    | succ f =>
        cases fs with
        | nil =>
            rw [show serializeFields [] = ([] : List Char) from by simp [serializeFields]]
            exact parseFieldsF_close f b
        | cons fld rest =>
            obtain ⟨k, v⟩ := fld
            rw [serializeFields_decomp rest k v] at hlen ⊢
            simp only [List.length_cons, List.length_append] at hlen
            have hpos := serialize_length_pos v
            rw [show ('"' :: (escapeString k ++ '"' :: ':' :: (serialize v ++
                serializeFieldsSep rest))) ++ '\x7d' :: b =
              '"' :: (escapeString k ++ '"' :: (':' :: (serialize v ++
                (serializeFieldsSep rest ++ '\x7d' :: b)))) from by simp,
              parseFieldsF_key f (escapeString k ++ '"' :: (':' :: (serialize v ++
                (serializeFieldsSep rest ++ '\x7d' :: b))))]
            have h1 : parseStrTail (escapeString k ++ '"' :: (':' :: (serialize v ++
                (serializeFieldsSep rest ++ '\x7d' :: b)))) =
                some (k, ':' :: (serialize v ++ (serializeFieldsSep rest ++
                  '\x7d' :: b))) :=
              parseStrTail_escape k _
            have h2 : skipWs (':' :: (serialize v ++ (serializeFieldsSep rest ++
                '\x7d' :: b))) = ':' :: (serialize v ++ (serializeFieldsSep rest ++
                '\x7d' :: b)) := skipWs_cons_not_ws ':' _ (by decide)
            have h3 : parseValF f (serialize v ++ (serializeFieldsSep rest ++
                '\x7d' :: b)) = some (v, serializeFieldsSep rest ++ '\x7d' :: b) :=
              (ih f (by omega)).1 v _ (by omega) (followOk_sepFields v rest b)
            have h4 : parseFieldsSepF f (serializeFieldsSep rest ++ '\x7d' :: b) =
                some (rest, b) :=
              (ih f (by omega)).2.2.2.2 rest b (by omega)
            simp only [h1, h2, h3, skipWs_sepFields rest b, h4]
  · intro fs b hlen
    cases f with
    | zero => omega
    | succ f =>
        cases fs with
        | nil => exact parseFieldsSepF_close f b
        | cons fld rest =>
            obtain ⟨k, v⟩ := fld
            rw [show serializeFieldsSep ((k, v) :: rest) =
              ',' :: '"' :: (escapeString k ++ '"' :: ':' :: (serialize v ++
                serializeFieldsSep rest)) from rfl] at hlen ⊢
            simp only [List.length_cons, List.length_append] at hlen
            have hpos := serialize_length_pos v
            rw [show (',' :: '"' :: (escapeString k ++ '"' :: ':' :: (serialize v ++
                serializeFieldsSep rest))) ++ '\x7d' :: b =
              ',' :: (('"' :: (escapeString k ++ '"' :: ':' :: (serialize v ++
                serializeFieldsSep rest))) ++ '\x7d' :: b) from rfl,
              parseFieldsSepF_comma f (('"' :: (escapeString k ++ '"' :: ':' ::
                (serialize v ++ serializeFieldsSep rest))) ++ '\x7d' :: b)]
            have h0 : skipWs (('"' :: (escapeString k ++ '"' :: ':' :: (serialize v ++
                serializeFieldsSep rest))) ++ '\x7d' :: b) =
                '"' :: ((escapeString k ++ '"' :: ':' :: (serialize v ++
                  serializeFieldsSep rest)) ++ '\x7d' :: b) :=
              skipWs_cons_not_ws '"'
                ((escapeString k ++ '"' :: ':' :: (serialize v ++
                  serializeFieldsSep rest)) ++ '\x7d' :: b) (by decide)
            have h1 : parseStrTail ((escapeString k ++ '"' :: ':' :: (serialize v ++
                serializeFieldsSep rest)) ++ '\x7d' :: b) =
                some (k, ':' :: (serialize v ++ (serializeFieldsSep rest ++
                  '\x7d' :: b))) := by
              rw [show (escapeString k ++ '"' :: ':' :: (serialize v ++
                  serializeFieldsSep rest)) ++ '\x7d' :: b =
                escapeString k ++ '"' :: (':' :: (serialize v ++
                  (serializeFieldsSep rest ++ '\x7d' :: b))) from by simp]
              exact parseStrTail_escape k _
            have h2 : skipWs (':' :: (serialize v ++ (serializeFieldsSep rest ++
                '\x7d' :: b))) = ':' :: (serialize v ++ (serializeFieldsSep rest ++
                '\x7d' :: b)) := skipWs_cons_not_ws ':' _ (by decide)
            have h3 : parseValF f (serialize v ++ (serializeFieldsSep rest ++
                '\x7d' :: b)) = some (v, serializeFieldsSep rest ++ '\x7d' :: b) :=
              (ih f (by omega)).1 v _ (by omega) (followOk_sepFields v rest b)
            have h4 : parseFieldsSepF f (serializeFieldsSep rest ++ '\x7d' :: b) =
                some (rest, b) :=
              (ih f (by omega)).2.2.2.2 rest b (by omega)
            simp only [h0, h1, h2, h3, skipWs_sepFields rest b, h4]

theorem munch_serialize (v : JValue) (b : List Char) (hfol : followOk v b) :
    munch (serialize v ++ b) = some (v, b) :=
  (parse_serialize ((serialize v ++ b).length + 1)).1 v b
    (by rw [List.length_append]; omega) hfol

theorem emitAll_encode : ∀ vals, safeSeq vals = true →
    emitAll (encodeStream vals).flatten = (vals, []) := by
  intro vals
  induction vals with
  | nil =>
      intro h
      rw [show (encodeStream ([] : List JValue)).flatten = ([] : List Char) from by
        simp [encodeStream]]
      exact emitAll_none [] munch_nil
  | cons v rest ih =>
      intro h
      rw [show (encodeStream (v :: rest)).flatten =
        serialize v ++ (encodeStream rest).flatten from by simp [encodeStream]]
      have hfol : followOk v (encodeStream rest).flatten := by
        intro hnum
        cases rest with
        | nil =>
            rw [show safeSeq [v] = (! JValue.isNum v) from rfl] at h
            rw [hnum] at h
            simp at h
        | cons w ws =>
            have hsafe : (! JValue.isNum v || ! JValue.isNum w) = true := by
              rw [show safeSeq (v :: w :: ws) =
                ((! JValue.isNum v || ! JValue.isNum w) && safeSeq (w :: ws))
                from rfl] at h
              rw [Bool.and_eq_true] at h
              exact h.1
            have hwnum : JValue.isNum w = false := by
              rw [hnum] at hsafe
              simpa using hsafe
            obtain ⟨c, cs, hc, hws, _, hnn⟩ := serialize_head w
            refine ⟨c, cs ++ (encodeStream ws).flatten, ?_, hnn hwnum⟩
            rw [show (encodeStream (w :: ws)).flatten =
              serialize w ++ (encodeStream ws).flatten from by simp [encodeStream], hc]
            rfl
      rw [emitAll_some _ v (encodeStream rest).flatten (munch_serialize v _ hfol)]
      have hrest : safeSeq rest = true := by
        cases rest with
        | nil => rfl
        | cons w ws =>
            rw [show safeSeq (v :: w :: ws) =
              ((! JValue.isNum v || ! JValue.isNum w) && safeSeq (w :: ws))
              from rfl] at h
            rw [Bool.and_eq_true] at h
            exact h.2
      rw [ih hrest]

/-- C1: the round trip claimed for arbitrary values fails on the program
as written — `EncodeStream` emits no separator between values, so the
serialisations of two adjacent numbers fuse into a single token; already
for the unmodified chunk sequence produced by encoding `[1, 2]` the
decoder emits nothing (it can never learn where `12` ends), not the
original two values. -/
theorem decode_encode_fails_on_adjacent_numbers :
    decodeChunks (encodeStream [JValue.jnum 1, JValue.jnum 2]) ≠
      [JValue.jnum 1, JValue.jnum 2] := by
  have he : encodeStream [JValue.jnum 1, JValue.jnum 2] = [['1'], ['2']] := by
    simp only [encodeStream, List.map_cons, List.map_nil]
    rw [show serialize (JValue.jnum 1) = intToChars 1 from by simp [serialize],
      show serialize (JValue.jnum 2) = intToChars 2 from by simp [serialize]]
    rfl
  rw [he]
  have hd : decodeChunks [['1'], ['2']] = [] := rfl
  rw [hd]
  simp

/-- C1 (amended): the round trip does hold for every re-chunking of the
encoded bytes — any chunk sequence with the same concatenation as the
encoder's output, including splits mid-value and merges across values —
provided no value's serialisation can fuse with what follows it: no
number is immediately followed by another number, and the sequence does
not end with a number (the decoder never being told the input ended, a
trailing number token is never emitted). -/
theorem decode_encode_rechunked (chunks : List (List Char)) (vals : List JValue)
    (hjoin : chunks.flatten = (encodeStream vals).flatten)
    (hsafe : safeSeq vals = true) :
    decodeChunks chunks = vals := by
  rw [decodeChunks_flatten chunks, hjoin, emitAll_encode vals hsafe]

theorem decode_encode_rechunked_witness :
    decodeChunks [['1', 'n'], ['u'], ['l', 'l']] = [JValue.jnum 1, JValue.jnull] :=
  decode_encode_rechunked [['1', 'n'], ['u'], ['l', 'l']] [JValue.jnum 1, JValue.jnull]
    (by
      rw [show (encodeStream [JValue.jnum 1, JValue.jnull]).flatten =
        serialize (JValue.jnum 1) ++ (serialize JValue.jnull ++ []) from by
          simp [encodeStream]]
      rw [show serialize (JValue.jnum 1) = intToChars 1 from by simp [serialize],
        show serialize JValue.jnull = ['n', 'u', 'l', 'l'] from by simp [serialize]]
      rfl)
    (by decide)

end VimChannel
